import Mathlib

/-!
Verification model of the `TrackerPromptMaker` schema-tree editor
(`src/unnamed/part_000` of the SillyTavern-Tracker repository).

The class keeps three pieces of backend state: `backendObject` (a JS object
mapping field ids to field records, nested through each record's
`nestedFields`), `fieldCounter` and `exampleCounter`.  All DOM/jQuery work in
the source only renders this state; every definition below embeds the backend
effect of the corresponding method.  JS objects preserve insertion order, so
object-valued mappings are modelled as association lists; JS numbers used as
counters are modelled as `Int` where they can go negative (`exampleCounter`)
and as `Nat` where they cannot (`fieldCounter`).
-/

namespace TrackerModel

/-- A field record, exactly the object literal built by `addField`:
`{name, type, isDynamic, prompt, defaultValue, exampleValues, nestedFields}`. -/
inductive Field where
  | mk (name : String) (type : String) (isDynamic : Bool)
      (prompt : String) (defaultValue : String)
      (exampleValues : List String)
      (nestedFields : List (String × Field))

def Field.name : Field → String
  | .mk n _ _ _ _ _ _ => n

def Field.type : Field → String
  | .mk _ t _ _ _ _ _ => t

def Field.isDynamic : Field → Bool
  | .mk _ _ d _ _ _ _ => d

def Field.prompt : Field → String
  | .mk _ _ _ p _ _ _ => p

def Field.defaultValue : Field → String
  | .mk _ _ _ _ v _ _ => v

def Field.exampleValues : Field → List String
  | .mk _ _ _ _ _ e _ => e

def Field.nestedFields : Field → List (String × Field)
  | .mk _ _ _ _ _ _ nf => nf

/-- Replace the nested mapping of a record (used to express in-place mutation
of `parentObject[fieldId].nestedFields` through a reference). -/
def Field.setNested (f : Field) (nf : List (String × Field)) : Field :=
  match f with
  | .mk n t d p v e _ => .mk n t d p v e nf

/-- The root mapping: id -> Field. -/
abbrev Tree := List (String × Field)

/-- The backend state of a `TrackerPromptMaker` instance. -/
structure MakerState where
  backendObject : Tree
  fieldCounter : Nat
  exampleCounter : Int

/-- Freshly constructed instance: `this.backendObject = {}`,
`this.fieldCounter = 0`, `this.exampleCounter = 0`. -/
def initState : MakerState :=
  { backendObject := [], fieldCounter := 0, exampleCounter := 0 }

/-- JS `x || d` for an optionally-present string attribute: `undefined` and
`""` are falsy, every other string is truthy. -/
def jsOrStr : Option String → String → String
  | none, d => d
  | some s, d => if s = "" then d else s

/-- Key present at the top level of a mapping. -/
def hasKey (k : String) (t : Tree) : Bool := t.any (fun p => p.1 = k)

/-- Assignment `m[k] = v` on a JS object: overwriting an existing key keeps
its position, a new key is appended.  (A JS object never holds duplicate
keys; on such lists the "replace every occurrence" branch coincides with
"replace the one occurrence".) -/
def insertAssoc (k : String) (v : Field) (t : Tree) : Tree :=
  if hasKey k t then
    t.map (fun p => if p.1 = k then (k, v) else p)
  else
    t ++ [(k, v)]

/-- Deletion `delete m[k]` on a JS object. -/
def deleteAssoc (k : String) (t : Tree) : Tree :=
  t.filter (fun p => p.1 ≠ k)

/-- Apply `g` to the record stored under `k` (models mutation of
`parentObject[k]` through a reference). -/
def updateEntry (k : String) (g : Field → Field) (t : Tree) : Tree :=
  t.map (fun p => if p.1 = k then (p.1, g p.2) else p)

/-- In the source, mutating methods receive a live reference to some
`nestedFields` mapping (`parentObject`).  In the model that mapping is
addressed by the chain of ancestor ids from the root; `updateMapAt path g`
applies the mutation `g` to the mapping addressed by `path` (`[]` is the root
`backendObject`). -/
def updateMapAt : List String → (Tree → Tree) → Tree → Tree
  | [], g, t => g t
  | k :: rest, g, t =>
      t.map (fun p =>
        if p.1 = k then (p.1, p.2.setNested (updateMapAt rest g p.2.nestedFields)) else p)

/-- First entry stored under `k` (JS property read on the mapping). -/
def lookupAssoc (k : String) : Tree → Option Field
  | [] => none
  | (k1, f) :: rest => if k = k1 then some f else lookupAssoc k rest

/-- Look up the field addressed by a non-empty id path from the root. -/
def lookupPath : List String → Tree → Option Field
  | [], _ => none
  | [k], t => lookupAssoc k t
  | k :: k2 :: rest, t =>
      match lookupAssoc k t with
      | none => none
      | some f => lookupPath (k2 :: rest) f.nestedFields

/-! ### Decimal ids

`addField` generates ids with the template literal `field-${this.fieldCounter++}`
(standard decimal rendering of the counter) and, when loading an id, advances
the counter with `parseInt(fieldId.split("-")[1])`.  The decimal rendering and
the two string operations are modelled below. -/

/-- The character for the decimal digit `d < 10`. -/
def digitChar (d : Nat) : Char := Char.ofNat (48 + d)

/-- Fuel-bounded digit expansion (the fuel always suffices at `n + 1`). -/
def natDigitsAux : Nat → Nat → List Char
  | 0, _ => []
  | fuel + 1, n =>
      if n < 10 then [digitChar n]
      else natDigitsAux fuel (n / 10) ++ [digitChar (n % 10)]

/-- Decimal digit string of a natural number (most significant digit first),
as produced by JS number-to-string conversion inside a template literal. -/
def natDigits (n : Nat) : List Char := natDigitsAux (n + 1) n

/-- Decimal rendering of a natural number. -/
def natRepr (n : Nat) : String := String.mk (natDigits n)

/-- Numeric value of a digit string (used to model `parseInt` on the digit
portion it consumes). -/
def digitsVal (l : List Char) : Nat :=
  l.foldl (fun a c => 10 * a + (c.toNat - 48)) 0

/-- JS `parseInt(s)` restricted to the inputs that occur here: it consumes the
longest leading run of decimal digits and yields `NaN` (modelled `none`) when
that run is empty.  (Sign, whitespace and radix-prefix handling of the real
`parseInt` never arise for field-id suffixes.) -/
def jsParseInt (s : String) : Option Nat :=
  let ds := s.data.takeWhile Char.isDigit
  if ds.isEmpty then none else some (digitsVal ds)

/-- JS `String.prototype.split("-")` on the character list: split into the
(possibly empty) chunks between `'-'` occurrences. -/
def splitDash : List Char → List (List Char)
  | [] => [[]]
  | c :: rest =>
      if c = '-' then [] :: splitDash rest
      else
        match splitDash rest with
        | [] => [[c]]
        | g :: gs => (c :: g) :: gs

/-- `parseInt(fieldId.split("-")[1])` as computed in `addField`; `none` stands
for `NaN` (a missing index 1, or a chunk not starting with a digit), on which
the `idNum >= this.fieldCounter` comparison is false. -/
def parseIdNum (fieldId : String) : Option Nat :=
  match (splitDash fieldId.data).get? 1 with
  | some cs => jsParseInt (String.mk cs)
  | none => none

/-- Counter advancement performed by `addField` when it is handed an explicit
field id. -/
def bumpCounter (fieldId : String) (c : Nat) : Nat :=
  match parseIdNum fieldId with
  | some n => if n ≥ c then n + 1 else c
  | none => c

/-! ### The operations -/

mutual
/-- The `fieldData` argument of `addField`: a plain JS object whose attributes
may each be absent (`undefined`, modelled `none`).  An absent `nestedFields`
behaves exactly like an empty one (the source guards every walk with
`fieldData.nestedFields && Object.keys(fieldData.nestedFields).length > 0`),
so it is modelled as a possibly-empty entry list. -/
inductive InitData where
  | mk (name : Option String) (type : Option String) (isDynamic : Option Bool)
      (prompt : Option String) (defaultValue : Option String)
      (exampleValues : Option (List String))
      (nestedFields : InitList)

/-- The `nestedFields` mapping carried by field data (id/field-data entries in
insertion order). -/
inductive InitList where
  | nil
  | cons (fieldId : String) (fieldData : InitData) (rest : InitList)
end

def InitData.name : InitData → Option String
  | .mk n _ _ _ _ _ _ => n

def InitData.type : InitData → Option String
  | .mk _ t _ _ _ _ _ => t

def InitData.isDynamic : InitData → Option Bool
  | .mk _ _ d _ _ _ _ => d

def InitData.prompt : InitData → Option String
  | .mk _ _ _ p _ _ _ => p

def InitData.defaultValue : InitData → Option String
  | .mk _ _ _ _ v _ _ => v

def InitData.exampleValues : InitData → Option (List String)
  | .mk _ _ _ _ _ e _ => e

def InitData.nestedFields : InitData → InitList
  | .mk _ _ _ _ _ _ nf => nf

/-- The empty object `{}` passed by the "Add Field" / "Add Nested Field"
buttons. -/
def emptyInit : InitData := .mk none none none none none none .nil

/-- The `exampleValues` default of `addField`: when `fieldData.exampleValues`
is absent it is filled with `this.exampleCounter` empty strings
(`for (let i = 0; i < this.exampleCounter; i++)` runs `max(counter, 0)`
times). -/
def defaultExampleValues (fieldData : InitData) (counter : Int) : List String :=
  match fieldData.exampleValues with
  | some evs => evs
  | none => List.replicate counter.toNat ""

/-- The record `addField` stores for one field (before its nested fields are
added): `fieldData.exampleValues` is set after the default above, so the
`fieldData.exampleValues ? [...fieldData.exampleValues] : []` ternary always
copies it. -/
def buildRecordFlat (fieldData : InitData) (counter : Int) : Field :=
  .mk (jsOrStr fieldData.name "") (jsOrStr fieldData.type "String")
    (fieldData.isDynamic.getD true) (jsOrStr fieldData.prompt "")
    (jsOrStr fieldData.defaultValue "") (defaultExampleValues fieldData counter) []

mutual
/-- Backend effect of `addField(parentObject, parentFieldId, fieldData, fieldId)`.
`path` is the chain of ancestor ids addressing the `parentObject` mapping
(`[]` for the root `backendObject`); the jQuery wrapper construction has no
backend effect and is not modelled.  With `fieldId? = none` a fresh id
`field-${this.fieldCounter++}` is allocated; with an explicit id the counter
is advanced past its parsed numeric suffix.  The stored record is built, the
field's `exampleValues` UI rows are populated (backend no-op), and finally
nested fields from `fieldData.nestedFields` are added recursively into the
freshly stored record's `nestedFields` mapping. -/
def addField (path : List String) (fieldId? : Option String) (fieldData : InitData)
    (st : MakerState) : MakerState :=
  match fieldData with
  | .mk nm ty dyn pr dv evs nested =>
    let idc : String × Nat :=
      match fieldId? with
      | none => ("field-" ++ natRepr st.fieldCounter, st.fieldCounter + 1)
      | some fid => (fid, bumpCounter fid st.fieldCounter)
    let record := buildRecordFlat (.mk nm ty dyn pr dv evs nested) st.exampleCounter
    let st1 : MakerState :=
      { backendObject := updateMapAt path (insertAssoc idc.1 record) st.backendObject,
        fieldCounter := idc.2,
        exampleCounter := st.exampleCounter }
    addFieldList (path ++ [idc.1]) nested st1

/-- The `fieldData.nestedFields` recursion at the end of `addField`
(`Object.entries(...).forEach`, in insertion order). -/
def addFieldList (path : List String) (l : InitList) (st : MakerState) : MakerState :=
  match l with
  | .nil => st
  | .cons nid ndata rest => addFieldList path rest (addField path (some nid) ndata st)
end

/-- Backend effect of the confirmed branch of `removeField(fieldId,
parentObject, fieldWrapper)`: `delete parentObject[fieldId]`.  When the user
dismisses the confirmation dialog nothing happens. -/
def removeField (confirmed : Bool) (path : List String) (fieldId : String)
    (st : MakerState) : MakerState :=
  if confirmed then
    { st with backendObject := updateMapAt path (deleteAssoc fieldId) st.backendObject }
  else st

/-- Model of `validateFieldName(name, fieldId, parentObject)`: a name holding
a double quote is rejected (warn + toastr, no state change, result `false`);
otherwise `parentObject[fieldId].name = name` and the result is `true`.  The
function always returns normally — no exception is thrown either way.  (The
model is only consulted at ids present in the mapping, as in the source,
where `fieldId` always names an existing record.) -/
def validateFieldName (name : String) (fieldId : String) (path : List String)
    (st : MakerState) : Bool × MakerState :=
  if name.data.contains '"' then
    (false, st)
  else
    (true,
      { st with
        backendObject :=
          updateMapAt path (updateEntry fieldId (fun f => .mk name f.type f.isDynamic
            f.prompt f.defaultValue f.exampleValues f.nestedFields)) st.backendObject })

/-- The closed list `FIELD_TYPES` (enumeration key, display value). -/
def FIELD_TYPES : List (String × String) :=
  [("STRING", "String"), ("ARRAY", "Array"), ("OBJECT", "Object"),
   ("FOR_EACH_OBJECT", "For Each Object"), ("ARRAY_OBJECT", "Array Object")]

/-- The list `NESTING_FIELD_TYPES` — note it holds the enumeration *keys*. -/
def NESTING_FIELD_TYPES : List String :=
  ["OBJECT", "FOR_EACH_OBJECT", "ARRAY_OBJECT"]

/-- The values the field-type `<select>` can deliver to `selectFieldType`:
its options are rendered with `value="${key}"`, so they are the enumeration
keys. -/
def selectOptionValues : List String := FIELD_TYPES.map Prod.fst

/-- The predicate driving the "Add Nested Field" affordance:
`TrackerPromptMaker.NESTING_FIELD_TYPES.includes(type)`. -/
def isNestingType (ty : String) : Bool := NESTING_FIELD_TYPES.contains ty

/-- Backend effect of `selectFieldType(type, fieldId, parentObject)`:
`parentObject[fieldId].type = type` (the button toggle is presentation). -/
def selectFieldType (ty : String) (fieldId : String) (path : List String)
    (st : MakerState) : MakerState :=
  { st with
    backendObject :=
      updateMapAt path (updateEntry fieldId (fun f => .mk f.name ty f.isDynamic
        f.prompt f.defaultValue f.exampleValues f.nestedFields)) st.backendObject }

/-- Backend effect of `toggleStaticDynamic(isDynamic, fieldId, parentObject)`. -/
def toggleStaticDynamic (isDynamic : Bool) (fieldId : String) (path : List String)
    (st : MakerState) : MakerState :=
  { st with
    backendObject :=
      updateMapAt path (updateEntry fieldId (fun f => .mk f.name f.type isDynamic
        f.prompt f.defaultValue f.exampleValues f.nestedFields)) st.backendObject }

/-- Backend effect of `updatePrompt(promptText, fieldId, parentObject)`. -/
def updatePrompt (promptText : String) (fieldId : String) (path : List String)
    (st : MakerState) : MakerState :=
  { st with
    backendObject :=
      updateMapAt path (updateEntry fieldId (fun f => .mk f.name f.type f.isDynamic
        promptText f.defaultValue f.exampleValues f.nestedFields)) st.backendObject }

/-- Backend effect of `updateDefaultValue(defaultValue, fieldId, parentObject)`. -/
def updateDefaultValue (defaultValue : String) (fieldId : String) (path : List String)
    (st : MakerState) : MakerState :=
  { st with
    backendObject :=
      updateMapAt path (updateEntry fieldId (fun f => .mk f.name f.type f.isDynamic
        f.prompt defaultValue f.exampleValues f.nestedFields)) st.backendObject }

/-- Backend effect of `updateExampleValue(fieldId, value, index, parentObject)`:
`parentObject[fieldId].exampleValues[index] = value`. -/
def updateExampleValue (fieldId : String) (value : String) (index : Nat)
    (path : List String) (st : MakerState) : MakerState :=
  { st with
    backendObject :=
      updateMapAt path (updateEntry fieldId (fun f => .mk f.name f.type f.isDynamic
        f.prompt f.defaultValue (f.exampleValues.set index value) f.nestedFields))
        st.backendObject }

mutual
/-- One appended empty-string slot per field, at every depth — the backend
effect of the per-field `addExampleValue(fieldId, parentObject)` pushes done
by `addExampleValueToAllFields` over its `collectAllFields` flattening (the
pushes are independent per field, so the flat pass equals this recursive
one). -/
def pushExampleTree : Tree → Tree
  | [] => []
  | (k, f) :: rest => (k, pushExampleField f) :: pushExampleTree rest

def pushExampleField : Field → Field
  | .mk n t d p v e nf => .mk n t d p v (e ++ [""]) (pushExampleTree nf)
end

/-- Backend effect of `addExampleValueToAllFields()`: push one `""` to every
field's `exampleValues` at every depth, then `this.exampleCounter++`. -/
def addExampleValueToAllFields (st : MakerState) : MakerState :=
  { st with
    backendObject := pushExampleTree st.backendObject,
    exampleCounter := st.exampleCounter + 1 }

mutual
/-- The per-field `pop` of `removeExampleValueFromAllFields`, guarded by
`fieldData.exampleValues.length > 0`. -/
def popExampleTree : Tree → Tree
  | [] => []
  | (k, f) :: rest => (k, popExampleField f) :: popExampleTree rest

def popExampleField : Field → Field
  | .mk n t d p v e nf => .mk n t d p v (if e.length > 0 then e.dropLast else e) (popExampleTree nf)
end

/-- Backend effect of `removeExampleValueFromAllFields()`: pop the last slot
of every non-empty `exampleValues` at every depth, then `this.exampleCounter--`
— the decrement is unconditional in the source, so the counter can become
negative. -/
def removeExampleValueFromAllFields (st : MakerState) : MakerState :=
  { st with
    backendObject := popExampleTree st.backendObject,
    exampleCounter := st.exampleCounter - 1 }

/-- Model of `triggerSaveCallback()`: the save callback is invoked with
`this.backendObject` — the live mapping itself.  The source performs no copy,
so the value handed out is, at every moment, whatever the live mapping then
holds; this definition returns the mapping the callback's holder observes in
the given state. -/
def triggerSaveCallback (st : MakerState) : Tree := st.backendObject

/-! ### Deserialization (`populateFromExistingObject`) -/

mutual
/-- First pass `collectExampleCount`: fold the running maximum of
`field.exampleValues.length` over every field at every depth (the source
recursion is guarded by a non-empty `nestedFields`, and recursing into an
empty mapping is a no-op, so the guard is dropped). -/
def collectExampleTree : Tree → Int → Int
  | [], c => c
  | (_, f) :: rest, c => collectExampleTree rest (collectExampleField f c)

def collectExampleField : Field → Int → Int
  | .mk _ _ _ _ _ e nf, c =>
      collectExampleTree nf (if (e.length : Int) > c then (e.length : Int) else c)
end

mutual
/-- Second pass `normalizeExampleCount`: pad every field's `exampleValues`
with `""` up to the collected counter, in place in the caller's object
(`while (field.exampleValues.length < this.exampleCounter) push("")`). -/
def normalizeExampleTree (c : Int) : Tree → Tree
  | [] => []
  | (k, f) :: rest => (k, normalizeExampleField c f) :: normalizeExampleTree c rest

def normalizeExampleField (c : Int) : Field → Field
  | .mk n t d p v e nf =>
      .mk n t d p v (e ++ List.replicate (c - e.length).toNat "") (normalizeExampleTree c nf)
end

mutual
/-- View of a stored field record as the `fieldData` argument handed back to
`addField` when the tree is rebuilt: every attribute is present. -/
def Field.toInitData : Field → InitData
  | .mk n t d p v e nf => .mk (some n) (some t) (some d) (some p) (some v) (some e)
      (treeToInitList nf)

def treeToInitList : Tree → InitList
  | [] => .nil
  | (k, f) :: rest => .cons k f.toInitData (treeToInitList rest)
end

/-- Model of `buildFieldsFromObject(obj, parentObject, parentFieldId)`:
`Object.entries(obj).forEach(([fieldId, fieldData]) => addField(parent,
parentFieldId, fieldData, fieldId, false))`. -/
def buildFieldsFromObject : Tree → List String → MakerState → MakerState
  | [], _, st => st
  | (fid, f) :: rest, path, st =>
      buildFieldsFromObject rest path (addField path (some fid) f.toInitData st)

/-- Backend effect of `populateFromExistingObject(existingObject)` on a
well-formed stored mapping, on which the `try` block cannot throw (the
malformed-input behaviour is modelled separately on a JS-value embedding).
The prior state is discarded entirely (`backendObject = {}`,
`fieldCounter = 0`, `exampleCounter = 0`) before the two passes run.  The
first component of the result is the caller's `existingObject` as it stands
after the call — `normalizeExampleCount` pads its arrays in place — and the
second is the rebuilt state. -/
def populateFromExistingObject (existingObject : Tree) (_prior : MakerState) :
    Tree × MakerState :=
  let c := collectExampleTree existingObject 0
  let normalized := normalizeExampleTree c existingObject
  (normalized,
    buildFieldsFromObject normalized []
      { backendObject := [], fieldCounter := 0, exampleCounter := c })

/-! ### Operation sequences

The spec's invariants quantify over sequences of editor operations; `Op`
enumerates the backend operations the claims mention and `execOps` runs a
sequence from a state. -/

inductive Op where
  | create (path : List String) (fieldData : InitData)
  | addRound
  | removeRound
  | deserialize (obj : Tree)
  | setType (path : List String) (fieldId : String) (ty : String)

def execOp : Op → MakerState → MakerState
  | .create path fieldData, st => addField path none fieldData st
  | .addRound, st => addExampleValueToAllFields st
  | .removeRound, st => removeExampleValueFromAllFields st
  | .deserialize obj, st => (populateFromExistingObject obj st).2
  | .setType path fieldId ty, st => selectFieldType ty fieldId path st

def execOps : List Op → MakerState → MakerState
  | [], st => st
  | op :: rest, st => execOps rest (execOp op st)

/-! ### Decidable tree predicates -/

mutual
/-- `P` holds of every field record at every depth of the mapping. -/
def allFieldsB (P : Field → Bool) : Tree → Bool
  | [] => true
  | (_, f) :: rest => allFieldB P f && allFieldsB P rest

def allFieldB (P : Field → Bool) : Field → Bool
  | .mk n t d p v e nf => P (.mk n t d p v e nf) && allFieldsB P nf
end

/-- Example-count uniformity of a mapping against a counter value: every
field at every depth has `exampleValues.length` equal to the counter. -/
def uniformLen (t : Tree) (c : Int) : Bool :=
  allFieldsB (fun f => (f.exampleValues.length : Int) == c) t

/-- Every stored `type` at every depth belongs to `tys`. -/
def typesWithin (t : Tree) (tys : List String) : Bool :=
  allFieldsB (fun f => tys.contains f.type) t

mutual
/-- `R` holds of the field data and of every nested field data below it. -/
def allInitB (R : InitData → Bool) : InitData → Bool
  | .mk n t d p v e nf => R (.mk n t d p v e nf) && allInitListB R nf

def allInitListB (R : InitData → Bool) : InitList → Bool
  | .nil => true
  | .cons _ i rest => allInitB R i && allInitListB R rest
end

/-- The field data carries no `exampleValues` array, at any depth. -/
def noCarriedExamples (fieldData : InitData) : Bool :=
  allInitB (fun i => i.exampleValues.isNone) fieldData

/-- Every `type` attribute carried by the field data, at any depth, lies in
`tys` (an absent `type` is unconstrained). -/
def initTypesWithin (fieldData : InitData) (tys : List String) : Bool :=
  allInitB (fun i => match i.type with | some ty => tys.contains ty | none => true) fieldData

/-- A field predicate that does not look at the nested mapping. -/
def NestedBlind (P : Field → Bool) : Prop :=
  ∀ n t d p v e nf nf2, P (Field.mk n t d p v e nf) = P (Field.mk n t d p v e nf2)

/-- A field predicate that looks neither at the nested mapping nor at the
example values. -/
def AttrBlind (P : Field → Bool) : Prop :=
  ∀ n t d p v e nf e2 nf2, P (Field.mk n t d p v e nf) = P (Field.mk n t d p v e2 nf2)

/-- Distinct sibling keys at the top level of a mapping. -/
def nodupKeys : Tree → Bool
  | [] => true
  | (k, _) :: rest => !(hasKey k rest) && nodupKeys rest

/-- A mapping representable as a JS object built by the editor: sibling keys
are distinct at every depth (JS objects cannot hold duplicate keys) and every
stored `type` is a non-empty — hence truthy — string (every record the editor
stores has `type = fieldData.type || "String"`, which is never `""`). -/
def wfTree (t : Tree) : Bool :=
  nodupKeys t && allFieldsB (fun f => (f.type != "") && nodupKeys f.nestedFields) t

/-- Well-formedness of a single stored record with its subtree. -/
def wfField (f : Field) : Bool := (f.type != "") && wfTree f.nestedFields

mutual
/-- Every id appearing in a mapping, at every depth, in walk order. -/
def allKeysTree : Tree → List String
  | [] => []
  | (k, f) :: rest => k :: (allKeysField f ++ allKeysTree rest)

def allKeysField : Field → List String
  | .mk _ _ _ _ _ _ nf => allKeysTree nf
end

mutual
/-- Closed form of the `fieldCounter` advancement performed when a stored
field (and, recursively, its subtree) is re-added with its explicit ids. -/
def bumpField (k : String) (f : Field) (c : Nat) : Nat :=
  match f with
  | .mk _ _ _ _ _ _ nf => bumpTree nf (bumpCounter k c)

def bumpTree : Tree → Nat → Nat
  | [], c => c
  | (k, f) :: rest, c => bumpTree rest (bumpField k f c)
end

/-- Sequential re-insertion of stored entries into the mapping addressed by
`path` (closed form of the tree effect of rebuilding a list of stored
fields). -/
def insertSeq (path : List String) : Tree → Tree → Tree
  | [], t => t
  | (k, f) :: rest, t => insertSeq path rest (updateMapAt path (insertAssoc k f) t)

/-- Fold of plain insertions (the `path = []` instance of `insertSeq`). -/
def foldIns (l : Tree) (acc : Tree) : Tree :=
  match l with
  | [] => acc
  | (k, f) :: rest => foldIns rest (insertAssoc k f acc)

/-- The attribute view of a record: its `nestedFields` replaced by the empty
mapping, leaving id-independent attributes (`name`, `type`, `isDynamic`,
`prompt`, `defaultValue`, `exampleValues`). -/
def stripNested (f : Field) : Field := f.setNested []

mutual
/-- Forget every `exampleValues` array (used to state that deserialization
preserves everything else). -/
def eraseExamplesTree : Tree → Tree
  | [] => []
  | (k, f) :: rest => (k, eraseExamplesField f) :: eraseExamplesTree rest

def eraseExamplesField : Field → Field
  | .mk n t d p v _ nf => .mk n t d p v [] (eraseExamplesTree nf)
end

/-! ### Admissible operation sequences -/

/-- Uniformity side conditions of the amended example-count claim: `create`
is passed field data that carries no `exampleValues` array at any depth (and
is a representable JS object), `removeExampleRound` is only invoked while the
counter is positive, and `deserialize` consumes a representable stored
mapping. -/
def okOpU (st : MakerState) : Op → Bool
  | .create _ fieldData => noCarriedExamples fieldData
  | .removeRound => decide (0 < st.exampleCounter)
  | _ => true

def admissibleU : MakerState → List Op → Bool
  | _, [] => true
  | st, op :: rest => okOpU st op && admissibleU (execOp op st) rest

/-- The six strings a stored `type` can actually hold: the default display
value `"String"` stored by `addField` when no type is carried, together with
the five enumeration keys delivered by the type `<select>`. -/
def storedTypeSpace : List String := "String" :: selectOptionValues

/-- Type side conditions of the amended type-enumeration claim: explicitly
carried types lie in the reachable stored-type space, `setType` receives a
value the `<select>` can produce, and `deserialize` consumes a mapping whose
types lie in the reachable space. -/
def okOpT : Op → Bool
  | .create _ fieldData => initTypesWithin fieldData storedTypeSpace
  | .setType _ _ ty => selectOptionValues.contains ty
  | .deserialize obj => typesWithin obj storedTypeSpace
  | _ => true

def admissibleT : List Op → Bool
  | [] => true
  | op :: rest => okOpT op && admissibleT rest

/-! ### JS-value embedding of `populateFromExistingObject`

The typed model above covers well-formed stored mappings, on which the
source's `try` block cannot throw.  To settle what `populateFromExistingObject`
does on a *malformed* stored mapping, the same method is embedded once more
over a type of arbitrary JSON-like JS values, replicating the JS semantics
met on such inputs: property access on `undefined`/`null` throws, `.length`
of a non-array/non-string is `undefined`, comparisons against `undefined` are
false, spreading a non-iterable throws, `Array.prototype.push` does not exist
on non-arrays.  Exceptions are modelled with `Except`, whose `error` payload
carries the state (or object) as mutated so far, because the source catches
the exception after the mutations have happened.  Numeric coercion of
object-valued operands and named properties of array values are outside the
modelled input space (no input considered below reaches them).  Recursion is
fuel-bounded; every theorem evaluates on concrete inputs with ample fuel. -/

inductive JVal where
  | jundefined
  | jnull
  | jbool (b : Bool)
  | jnum (n : Int)
  | jstr (s : String)
  | jarr (xs : List JVal)
  | jobj (fields : List (String × JVal))

/-- JS truthiness. -/
def truthy : JVal → Bool
  | .jundefined => false
  | .jnull => false
  | .jbool b => b
  | .jnum n => n != 0
  | .jstr s => s != ""
  | .jarr _ => true
  | .jobj _ => true

/-- Property read `v[k]`: throws on `undefined`/`null`, is the stored value
or `undefined` on objects, supports `length` on arrays and strings, and is
`undefined` on other primitives. -/
def getProp : JVal → String → Except Unit JVal
  | .jundefined, _ => .error ()
  | .jnull, _ => .error ()
  | .jobj l, k => .ok ((l.lookup k).getD .jundefined)
  | .jarr xs, k => .ok (if k = "length" then .jnum xs.length else .jundefined)
  | .jstr s, k => .ok (if k = "length" then .jnum s.length else .jundefined)
  | _, _ => .ok .jundefined

/-- Total property read used once the receiver is known not to throw. -/
def getPropD (v : JVal) (k : String) : JVal :=
  match getProp v k with
  | .ok x => x
  | .error _ => .jundefined

/-- Numeric view for comparisons; `none` is `NaN` (every comparison against
it is false). -/
def jsToNumOpt : JVal → Option Int
  | .jnum n => some n
  | .jbool b => some (if b then 1 else 0)
  | .jnull => some 0
  | _ => none

/-- JS `a > c` for the values compared here. -/
def jsGT (a : JVal) (c : Int) : Bool :=
  match jsToNumOpt a with
  | some n => n > c
  | none => false

/-- JS `a < c` for the values compared here. -/
def jsLT (a : JVal) (c : Int) : Bool :=
  match jsToNumOpt a with
  | some n => n < c
  | none => false

/-- `Object.keys(v).length` for a truthy `v`. -/
def keysLength : JVal → Nat
  | .jobj l => l.length
  | .jarr xs => xs.length
  | .jstr s => s.length
  | _ => 0

/-- `Object.entries(v)`: throws on `undefined`/`null`; own enumerable entries
on objects, index/element pairs on arrays, index/character pairs on strings,
empty on other primitives. -/
def objEntries : JVal → Except Unit (List (String × JVal))
  | .jundefined => .error ()
  | .jnull => .error ()
  | .jobj l => .ok l
  | .jarr xs => .ok ((List.range xs.length).zip xs |>.map (fun p => (natRepr p.1, p.2)))
  | .jstr s => .ok ((List.range s.length).zip (s.data.map (fun ch => JVal.jstr (String.mk [ch])))
      |>.map (fun p => (natRepr p.1, p.2)))
  | _ => .ok []

/-- Spread `[...v]`: arrays spread to their elements, strings to their
characters, anything else throws (`not iterable`). -/
def jsSpread : JVal → Except Unit (List JVal)
  | .jarr xs => .ok xs
  | .jstr s => .ok (s.data.map (fun ch => JVal.jstr (String.mk [ch])))
  | _ => .error ()

/-- JS `v || d` on values. -/
def jsOrJ (v : JVal) (d : JVal) : JVal := if truthy v then v else d

/-- JS `v ?? d`. -/
def jsNullishJ (v : JVal) (d : JVal) : JVal :=
  match v with
  | .jundefined => d
  | .jnull => d
  | x => x

/-- Named-property write on an object (replace in place, else append);
primitive receivers would have thrown earlier on every path taken here. -/
def setPropJ (v : JVal) (k : String) (x : JVal) : JVal :=
  match v with
  | .jobj l =>
      .jobj (if l.any (fun p => p.1 = k) then
               l.map (fun p => if p.1 = k then (k, x) else p)
             else l ++ [(k, x)])
  | other => other

/-- `Object.values` of a truthy receiver (cannot throw). -/
def objValuesD : JVal → List JVal
  | .jobj l => l.map Prod.snd
  | .jarr xs => xs
  | .jstr s => s.data.map (fun ch => JVal.jstr (String.mk [ch]))
  | _ => []

/-- The walk of `collectExampleCount` over JS values, as a depth-first
worklist: per field the running maximum of `field.exampleValues.length` is
taken, and a truthy non-empty `nestedFields` contributes its values ahead of
the remaining siblings — exactly the source's recursion order.  The `error`
payload is `this.exampleCounter` as already updated when the walk threw.
Structural on `fuel` so that concrete runs evaluate in the kernel; the fuel
never runs out on the inputs considered here. -/
def collectJList : Nat → List JVal → Int → Except Int Int
  | 0, _, c => .error c
  | _ + 1, [], c => .ok c
  | fuel + 1, field :: rest, c =>
      match getProp field "exampleValues" with
      | .error _ => .error c
      | .ok ev =>
          match getProp ev "length" with
          | .error _ => .error c
          | .ok len =>
              let c1 := if jsGT len c then (jsToNumOpt len).getD c else c
              let nf := getPropD field "nestedFields"
              if truthy nf && keysLength nf > 0 then
                collectJList fuel (objValuesD nf ++ rest) c1
              else collectJList fuel rest c1

/-- `collectExampleCount(existingObject)` over JS values. -/
def collectJ (fuel : Nat) (obj : JVal) (c : Int) : Except Int Int :=
  match objEntries obj with
  | .error _ => .error c
  | .ok entries => collectJList fuel (entries.map Prod.snd) c

/-- The `while (field.exampleValues.length < counter) push("")` loop on one
`exampleValues` value: pads arrays; a string shorter than the counter enters
the loop and throws (`push` is not a function on it), as does a value whose
`length` read throws; values whose `length` compares as `NaN` never enter the
loop. -/
def padExamples (ev : JVal) (c : Int) : Except Unit JVal :=
  match ev with
  | .jarr xs => .ok (.jarr (xs ++ List.replicate (c - xs.length).toNat (.jstr "")))
  | other =>
      match getProp other "length" with
      | .error _ => .error ()
      | .ok len => if jsLT len c then .error () else .ok other

/-- `normalizeExampleCount` over JS values: pads every field's
`exampleValues` in place inside the caller's object; the `error` payload is
the object as mutated up to the throw.  The remaining sibling entries of a
container are processed by recursing on the container holding them, so the
function is structural on `fuel` (the two fallback arms for a rebuilt
container of a different shape are unreachable). -/
def normalizeJ : Nat → JVal → Int → Except JVal JVal
  | 0, obj, _ => .error obj
  | _ + 1, .jundefined, _ => .error .jundefined
  | _ + 1, .jnull, _ => .error .jnull
  | _ + 1, .jstr s, _ => if s = "" then .ok (.jstr s) else .error (.jstr s)
  | _ + 1, .jobj [], _ => .ok (.jobj [])
  | _ + 1, .jarr [], _ => .ok (.jarr [])
  | fuel + 1, .jobj ((k, field) :: rest), c =>
      match getProp field "exampleValues" with
      | .error _ => .error (.jobj ((k, field) :: rest))
      | .ok ev =>
          match padExamples ev c with
          | .error _ => .error (.jobj ((k, field) :: rest))
          | .ok ev2 =>
              let field1 := setPropJ field "exampleValues" ev2
              let nf := getPropD field1 "nestedFields"
              match (if truthy nf && keysLength nf > 0 then
                       match normalizeJ fuel nf c with
                       | .error nf2 => .error (setPropJ field1 "nestedFields" nf2)
                       | .ok nf2 => .ok (setPropJ field1 "nestedFields" nf2)
                     else .ok field1 : Except JVal JVal) with
              | .error field2 => .error (.jobj ((k, field2) :: rest))
              | .ok field2 =>
                  match normalizeJ fuel (.jobj rest) c with
                  | .error (.jobj rest2) => .error (.jobj ((k, field2) :: rest2))
                  | .error other => .error other
                  | .ok (.jobj rest2) => .ok (.jobj ((k, field2) :: rest2))
                  | .ok other => .ok other
  | fuel + 1, .jarr (field :: rest), c =>
      match getProp field "exampleValues" with
      | .error _ => .error (.jarr (field :: rest))
      | .ok ev =>
          match padExamples ev c with
          | .error _ => .error (.jarr (field :: rest))
          | .ok ev2 =>
              let field1 := setPropJ field "exampleValues" ev2
              let nf := getPropD field1 "nestedFields"
              match (if truthy nf && keysLength nf > 0 then
                       match normalizeJ fuel nf c with
                       | .error nf2 => .error (setPropJ field1 "nestedFields" nf2)
                       | .ok nf2 => .ok (setPropJ field1 "nestedFields" nf2)
                     else .ok field1 : Except JVal JVal) with
              | .error field2 => .error (.jarr (field2 :: rest))
              | .ok field2 =>
                  match normalizeJ fuel (.jarr rest) c with
                  | .error (.jarr rest2) => .error (.jarr (field2 :: rest2))
                  | .error other => .error other
                  | .ok (.jarr rest2) => .ok (.jarr (field2 :: rest2))
                  | .ok other => .ok other
  | _ + 1, other, _ => .ok other

/-- The backend mapping during JS-value rebuilding. -/
structure JState where
  backendObject : List (String × JVal)
  fieldCounter : Nat
  exampleCounter : Int

/-- `updateMapAt` on the JS-value backend: navigate stored records through
their `nestedFields` attribute. -/
def updateJMapAt : List String → (List (String × JVal) → List (String × JVal)) →
    List (String × JVal) → List (String × JVal)
  | [], g, t => g t
  | k :: rest, g, t =>
      t.map (fun p =>
        if p.1 = k then
          (k, match p.2 with
              | .jobj attrs =>
                  .jobj (attrs.map (fun q =>
                    if q.1 = "nestedFields" then
                      (q.1, match q.2 with
                            | .jobj nested => .jobj (updateJMapAt rest g nested)
                            | other => other)
                    else q))
              | other => other)
        else p)

/-- `m[k] = v` on the JS-value backend. -/
def insertAssocJ (k : String) (v : JVal) (t : List (String × JVal)) :
    List (String × JVal) :=
  if t.any (fun p => p.1 = k) then
    t.map (fun p => if p.1 = k then (k, v) else p)
  else
    t ++ [(k, v)]

/-- The rebuild loop over JS values: process stored `(fieldId, fieldData)`
entries in order, each through the backend steps of `addField` on the load
path (explicit `fieldId`, `isNewField = false`).  Per entry, in source order:
advance `fieldCounter` past the id's parsed suffix; read
`fieldData.exampleValues` (throws when `fieldData` is `undefined`/`null`) and
install the default when it is falsy (a strict-mode write on a primitive
`fieldData` throws); build the stored record, spreading the example values
(throws on a truthy non-iterable); insert it; then recurse into a truthy
non-empty `nestedFields` before the next sibling.  The `error` payload is the
state as mutated up to the throw.  Structural on `fuel`, which never runs out
on the inputs considered here. -/
def addFieldJGo : Nat → List String → List (String × JVal) → JState → Except JState JState
  | 0, _, _, st => .error st
  | _ + 1, _, [], st => .ok st
  | fuel + 1, path, (fieldId, fieldData) :: rest, st =>
      let fc := bumpCounter fieldId st.fieldCounter
      let stb : JState := { st with fieldCounter := fc }
      match getProp fieldData "exampleValues" with
      | .error _ => .error stb
      | .ok ev0 =>
          match (if truthy ev0 then .ok (fieldData, ev0)
                 else
                   match fieldData with
                   | .jobj attrs =>
                       let ev1 := JVal.jarr (List.replicate stb.exampleCounter.toNat (.jstr ""))
                       .ok (setPropJ (.jobj attrs) "exampleValues" ev1, ev1)
                   | _ => .error () : Except Unit (JVal × JVal)) with
          | .error _ => .error stb
          | .ok (fieldData1, ev1) =>
              match jsSpread ev1 with
              | .error _ => .error stb
              | .ok evList =>
                  let record : JVal := .jobj
                    [("name", jsOrJ (getPropD fieldData1 "name") (.jstr "")),
                     ("type", jsOrJ (getPropD fieldData1 "type") (.jstr "String")),
                     ("isDynamic", jsNullishJ (getPropD fieldData1 "isDynamic") (.jbool true)),
                     ("prompt", jsOrJ (getPropD fieldData1 "prompt") (.jstr "")),
                     ("defaultValue", jsOrJ (getPropD fieldData1 "defaultValue") (.jstr "")),
                     ("exampleValues", .jarr evList),
                     ("nestedFields", .jobj [])]
                  let st1 : JState :=
                    { stb with
                      backendObject :=
                        updateJMapAt path (insertAssocJ fieldId record) stb.backendObject }
                  let nf := getPropD fieldData1 "nestedFields"
                  match (if truthy nf && keysLength nf > 0 then
                           match objEntries nf with
                           | .error _ => .error st1
                           | .ok entries => addFieldJGo fuel (path ++ [fieldId]) entries st1
                         else .ok st1 : Except JState JState) with
                  | .error st2 => .error st2
                  | .ok st2 => addFieldJGo fuel path rest st2

/-- `populateFromExistingObject` over JS values: reset the instance, run the
two passes and the rebuild inside `try`, and on a throw catch it and report
the load failure (`toastr.error("Failed to load data.")`).  Result: the
caller's object as it stands after the call, the instance state as it stands
after the call, and whether the `try` block completed. -/
def populateJ (fuel : Nat) (existingObject : JVal) (_prior : JState) :
    JVal × JState × Bool :=
  match collectJ fuel existingObject 0 with
  | .error cPart => (existingObject, ⟨[], 0, cPart⟩, false)
  | .ok c =>
      match normalizeJ fuel existingObject c with
      | .error objPart => (objPart, ⟨[], 0, c⟩, false)
      | .ok obj2 =>
          match objEntries obj2 with
          | .error _ => (obj2, ⟨[], 0, c⟩, false)
          | .ok entries =>
              match addFieldJGo fuel [] entries ⟨[], 0, c⟩ with
              | .error stPart => (obj2, stPart, false)
              | .ok st => (obj2, st, true)

/-- A fully well-formed stored record over JS values. -/
def storedRecordJ (nm : String) (evs : List JVal) : JVal :=
  .jobj [("name", .jstr nm), ("type", .jstr "String"), ("isDynamic", .jbool true),
         ("prompt", .jstr ""), ("defaultValue", .jstr ""), ("exampleValues", .jarr evs),
         ("nestedFields", .jobj [])]

/-- A malformed stored mapping: `f1` is a well-formed record, `f2` carries a
number where its `exampleValues` array should be.  Both passes of
`populateFromExistingObject` accept it (`(5).length` is `undefined`, which
compares as false against the counter), and the rebuild then throws on
`[...fieldData.exampleValues]` (`5 is not iterable`) — after `f1` has already
been inserted into the fresh `backendObject`. -/
def malformedStored : JVal :=
  .jobj [("f1", storedRecordJ "a" []),
         ("f2", .jobj [("name", .jstr "b"), ("type", .jstr "String"),
                       ("isDynamic", .jbool true), ("prompt", .jstr ""),
                       ("defaultValue", .jstr ""), ("exampleValues", .jnum 5),
                       ("nestedFields", .jobj [])])]

/-- A non-trivial prior instance state, to exhibit that the caught failure
leaves neither the prior tree nor an empty one. -/
def priorJState : JState := ⟨[("p0", storedRecordJ "prior" [])], 3, 2⟩

/-- The operation sequence consists solely of `create` calls — the round-trip
claim's "any tree built via `create`". -/
def createOnly : List Op → Bool
  | [] => true
  | .create _ _ :: rest => createOnly rest
  | _ => false

/-- A concrete `create`-only editing sequence: a nested object field (with a
carried example array, so padding normalization is exercised), a field created
inside it, and a second root field. -/
def sampleCreateOps : List Op :=
  [Op.create [] (InitData.mk (some "char") (some "OBJECT") (some false) (some "p")
      (some "d") (some ["x"]) (.cons "inner" emptyInit .nil)),
   Op.create ["field-0"] emptyInit,
   Op.create [] emptyInit]

/-! ## Lemmas -/

theorem digitChar_isDigit {d : Nat} (h : d < 10) : (digitChar d).isDigit = true := by
  interval_cases d <;> decide

theorem digitChar_toNat {d : Nat} (h : d < 10) : (digitChar d).toNat = 48 + d := by
  interval_cases d <;> decide

theorem isDigit_ne_dash {c : Char} (h : c.isDigit = true) : c ≠ '-' := by
  intro hc
  subst hc
  exact absurd h (by decide)

theorem natDigitsAux_fuel : ∀ {n fuel fuel' : Nat}, n < fuel → n < fuel' →
    natDigitsAux fuel n = natDigitsAux fuel' n := by
  intro n
  induction n using Nat.strong_induction_on with
  | _ n ih =>
    intro fuel fuel' h h'
    match fuel, fuel' with
    | f1 + 1, f2 + 1 =>
      rw [natDigitsAux, natDigitsAux]
      by_cases hn : n < 10
      · rw [if_pos hn, if_pos hn]
      · rw [if_neg hn, if_neg hn]
        have hd : n / 10 < n := Nat.div_lt_self (by omega) (by omega)
        rw [show natDigitsAux f1 (n / 10) = natDigitsAux f2 (n / 10) from
          ih (n / 10) hd (by omega) (by omega)]

theorem natDigits_eq (n : Nat) : natDigits n =
    if n < 10 then [digitChar n] else natDigits (n / 10) ++ [digitChar (n % 10)] := by
  rw [natDigits, natDigitsAux]
  by_cases hn : n < 10
  · rw [if_pos hn, if_pos hn]
  · rw [if_neg hn, if_neg hn]
    have hd : n / 10 < n := Nat.div_lt_self (by omega) (by omega)
    rw [natDigitsAux_fuel hd (Nat.lt_succ_self _)]
    rfl

theorem natDigits_ne_nil (n : Nat) : natDigits n ≠ [] := by
  rw [natDigits_eq]
  split
  · simp
  · simp

theorem natDigits_all_digits (n : Nat) : ∀ c ∈ natDigits n, c.isDigit = true := by
  induction n using Nat.strong_induction_on with
  | _ n ih =>
    rw [natDigits_eq]
    split
    · next h => intro c hc; simp at hc; subst hc; exact digitChar_isDigit h
    · next h =>
      intro c hc
      simp only [List.mem_append, List.mem_singleton] at hc
      rcases hc with hc | hc
      · exact ih (n / 10) (Nat.div_lt_self (by omega) (by omega)) c hc
      · subst hc; exact digitChar_isDigit (Nat.mod_lt _ (by omega))

theorem digitsVal_append_one (l : List Char) (c : Char) :
    digitsVal (l ++ [c]) = 10 * digitsVal l + (c.toNat - 48) := by
  simp [digitsVal, List.foldl_append]

theorem digitsVal_natDigits (n : Nat) : digitsVal (natDigits n) = n := by
  induction n using Nat.strong_induction_on with
  | _ n ih =>
    rw [natDigits_eq]
    split
    · next h => simp [digitsVal, digitChar_toNat h]
    · next h =>
      rw [digitsVal_append_one, ih (n / 10) (Nat.div_lt_self (by omega) (by omega)),
        digitChar_toNat (Nat.mod_lt _ (by omega))]
      omega

theorem takeWhile_all {l : List Char} (h : ∀ c ∈ l, c.isDigit = true) :
    l.takeWhile Char.isDigit = l := by
  induction l with
  | nil => rfl
  | cons c rest ih =>
    simp only [List.takeWhile_cons]
    rw [h c (by simp)]
    simp [ih (fun x hx => h x (by simp [hx]))]

theorem jsParseInt_natRepr (n : Nat) : jsParseInt (natRepr n) = some n := by
  unfold jsParseInt natRepr
  simp only
  rw [takeWhile_all (natDigits_all_digits n)]
  simp [natDigits_ne_nil n, digitsVal_natDigits n, List.isEmpty_iff]

theorem splitDash_no_dash {l : List Char} (h : ∀ c ∈ l, c ≠ '-') :
    splitDash l = [l] := by
  induction l with
  | nil => rfl
  | cons c rest ih =>
    unfold splitDash
    rw [if_neg (h c (by simp))]
    rw [ih (fun x hx => h x (by simp [hx]))]

theorem splitDash_ne_nil (l : List Char) : splitDash l ≠ [] := by
  cases l with
  | nil => simp [splitDash]
  | cons c rest =>
    unfold splitDash
    split
    · simp
    · cases h : splitDash rest <;> simp

theorem splitDash_prefix {p : List Char} (hp : ∀ c ∈ p, c ≠ '-') (rest : List Char) :
    splitDash (p ++ '-' :: rest) = p :: splitDash rest := by
  induction p with
  | nil => simp [splitDash]
  | cons c q ih =>
    have hrec := ih (fun x hx => hp x (by simp [hx]))
    simp only [List.cons_append]
    conv_lhs => rw [splitDash]
    rw [if_neg (hp c (by simp)), hrec]

theorem parseIdNum_field (n : Nat) : parseIdNum ("field-" ++ natRepr n) = some n := by
  unfold parseIdNum
  have hdata : ("field-" ++ natRepr n).data = ['f', 'i', 'e', 'l', 'd'] ++ '-' :: natDigits n := by
    simp [natRepr, String.mk]
  rw [hdata, splitDash_prefix (by decide),
    splitDash_no_dash (fun c hc => isDigit_ne_dash (natDigits_all_digits n c hc))]
  simpa [natRepr] using jsParseInt_natRepr n

/-! ### Traversal predicates -/

theorem allFieldsB_nil (P : Field → Bool) : allFieldsB P [] = true := rfl

theorem allFieldsB_cons (P : Field → Bool) (k : String) (f : Field) (rest : Tree) :
    allFieldsB P ((k, f) :: rest) = (allFieldB P f && allFieldsB P rest) := by
  rw [allFieldsB]

theorem allFieldB_mk (P : Field → Bool) (n t : String) (d : Bool) (p v : String)
    (e : List String) (nf : Tree) :
    allFieldB P (.mk n t d p v e nf) = (P (.mk n t d p v e nf) && allFieldsB P nf) := by
  rw [allFieldB]

theorem allFieldsB_append (P : Field → Bool) (t1 t2 : Tree) :
    allFieldsB P (t1 ++ t2) = (allFieldsB P t1 && allFieldsB P t2) := by
  induction t1 with
  | nil => simp [allFieldsB_nil]
  | cons hd tl ih =>
      cases hd with
      | mk k f => simp [allFieldsB_cons, ih, Bool.and_assoc]

theorem setNested_nestedFields (f : Field) (x : Tree) : (f.setNested x).nestedFields = x := by
  cases f
  rfl

theorem setNested_setNested (f : Field) (x y : Tree) :
    (f.setNested x).setNested y = f.setNested y := by
  cases f
  rfl

theorem allFieldB_setNested (P : Field → Bool) (hB : NestedBlind P) (f : Field) (x : Tree) :
    allFieldB P (f.setNested x) = (P f && allFieldsB P x) := by
  cases f with
  | mk n t d p v e nf =>
      rw [Field.setNested, allFieldB_mk, hB n t d p v e x nf]

theorem allFieldsB_updateMapAt (P : Field → Bool) (hB : NestedBlind P)
    (g : Tree → Tree) (hg : ∀ t, allFieldsB P t = true → allFieldsB P (g t) = true) :
    ∀ (path : List String) (t : Tree),
      allFieldsB P t = true → allFieldsB P (updateMapAt path g t) = true := by
  intro path
  induction path with
  | nil => intro t ht; exact hg t ht
  | cons k rest ih =>
      intro t ht
      rw [updateMapAt]
      induction t with
      | nil => exact rfl
      | cons hd tl iht =>
          cases hd with
          | mk k1 f =>
              rw [allFieldsB_cons] at ht
              have h1 : allFieldB P f = true := by
                have := ht
                simp only [Bool.and_eq_true] at this
                exact this.1
              have h2 : allFieldsB P tl = true := by
                have := ht
                simp only [Bool.and_eq_true] at this
                exact this.2
              rw [List.map_cons]
              by_cases hk : k1 = k
              · have hfld : allFieldB P (f.setNested (updateMapAt rest g f.nestedFields)) = true := by
                  rw [allFieldB_setNested P hB]
                  cases f with
                  | mk n t2 d p v e nf =>
                      rw [allFieldB_mk] at h1
                      simp only [Bool.and_eq_true] at h1
                      have hnf : allFieldsB P (updateMapAt rest g
                          ((Field.mk n t2 d p v e nf).nestedFields)) = true := ih _ h1.2
                      simp only [Bool.and_eq_true]
                      exact ⟨h1.1, hnf⟩
                simp only [hk, if_pos rfl]
                rw [allFieldsB_cons]
                simp only [Bool.and_eq_true]
                exact ⟨hfld, by simpa using iht h2⟩
              · rw [if_neg hk]
                rw [allFieldsB_cons]
                simp only [Bool.and_eq_true]
                exact ⟨h1, by simpa using iht h2⟩

theorem allFieldsB_overwrite (P : Field → Bool) (k : String) (v : Field) (t : Tree)
    (hv : allFieldB P v = true) (ht : allFieldsB P t = true) :
    allFieldsB P (t.map (fun p => if p.1 = k then (k, v) else p)) = true := by
  induction t with
  | nil => exact rfl
  | cons hd tl ih =>
      cases hd with
      | mk k1 f =>
          rw [allFieldsB_cons] at ht
          simp only [Bool.and_eq_true] at ht
          rw [List.map_cons]
          by_cases hk : k1 = k
          · simp only [hk, if_pos rfl]
            rw [allFieldsB_cons]
            simp only [Bool.and_eq_true]
            exact ⟨hv, by simpa using ih ht.2⟩
          · simp only [if_neg hk]
            rw [allFieldsB_cons]
            simp only [Bool.and_eq_true]
            exact ⟨ht.1, by simpa using ih ht.2⟩

theorem allFieldsB_insertAssoc (P : Field → Bool) (k : String) (v : Field) (t : Tree)
    (hv : allFieldB P v = true) (ht : allFieldsB P t = true) :
    allFieldsB P (insertAssoc k v t) = true := by
  unfold insertAssoc
  split
  · exact allFieldsB_overwrite P k v t hv ht
  · rw [allFieldsB_append]
    simp only [Bool.and_eq_true]
    exact ⟨ht, by rw [allFieldsB_cons, allFieldsB_nil, hv]; rfl⟩

/-! ### `addField` invariants -/

mutual
theorem addField_ec (path : List String) (fieldId? : Option String) (fieldData : InitData)
    (st : MakerState) :
    (addField path fieldId? fieldData st).exampleCounter = st.exampleCounter := by
  cases fieldData with
  | mk nm ty dyn pr dv evs nested =>
      rw [addField.eq_def]
      exact addFieldList_ec _ nested _
termination_by sizeOf fieldData

theorem addFieldList_ec (path : List String) (l : InitList)
    (st : MakerState) :
    (addFieldList path l st).exampleCounter = st.exampleCounter := by
  match l with
  | .nil => rw [addFieldList]
  | .cons nid ndata rest =>
      rw [addFieldList]
      rw [addFieldList_ec path rest _, addField_ec path (some nid) ndata st]
termination_by sizeOf l
end

theorem allInitB_mk (R : InitData → Bool) (n t : Option String) (d : Option Bool)
    (p v : Option String) (e : Option (List String)) (nf : InitList) :
    allInitB R (.mk n t d p v e nf) = (R (.mk n t d p v e nf) && allInitListB R nf) := by
  rw [allInitB]

mutual
theorem allInitB_mono (R S : InitData → Bool) (h : ∀ i, R i = true → S i = true)
    (i : InitData) (hi : allInitB R i = true) : allInitB S i = true := by
  cases i with
  | mk n t d p v e nf =>
      rw [allInitB_mk] at hi ⊢
      simp only [Bool.and_eq_true] at hi ⊢
      exact ⟨h _ hi.1, allInitListB_mono R S h nf hi.2⟩
termination_by sizeOf i

theorem allInitListB_mono (R S : InitData → Bool) (h : ∀ i, R i = true → S i = true)
    (l : InitList) (hl : allInitListB R l = true) :
    allInitListB S l = true := by
  match l with
  | .nil => rfl
  | .cons nid ndata rest =>
      rw [allInitListB] at hl ⊢
      simp only [Bool.and_eq_true] at hl ⊢
      exact ⟨allInitB_mono R S h ndata hl.1, allInitListB_mono R S h rest hl.2⟩
termination_by sizeOf l
end

mutual
/-- Every field a stored subtree contributes satisfies `Q` exactly when the
rebuilt field data satisfies the transported predicate. -/
theorem toInitData_all (Q : Field → Bool) (R : InitData → Bool)
    (h : ∀ g : Field, Q g = true → R g.toInitData = true) (f : Field)
    (hf : allFieldB Q f = true) : allInitB R f.toInitData = true := by
  cases f with
  | mk n t d p v e nf =>
      rw [allFieldB_mk] at hf
      simp only [Bool.and_eq_true] at hf
      rw [Field.toInitData, allInitB_mk]
      simp only [Bool.and_eq_true]
      refine ⟨?_, toInitList_all Q R h nf hf.2⟩
      have := h (.mk n t d p v e nf) hf.1
      rw [Field.toInitData] at this
      exact this
termination_by sizeOf f

theorem toInitList_all (Q : Field → Bool) (R : InitData → Bool)
    (h : ∀ g : Field, Q g = true → R g.toInitData = true) (t : Tree)
    (ht : allFieldsB Q t = true) : allInitListB R (treeToInitList t) = true := by
  match t with
  | [] => rfl
  | (k, f) :: rest =>
      rw [allFieldsB_cons] at ht
      simp only [Bool.and_eq_true] at ht
      rw [treeToInitList, allInitListB]
      simp only [Bool.and_eq_true]
      exact ⟨toInitData_all Q R h f ht.1, toInitList_all Q R h rest ht.2⟩
termination_by sizeOf t
end

mutual
/-- Generic preservation: adding a field keeps a nested-blind predicate true
of every stored record, provided the predicate holds of the records the field
data can produce under the current example counter. -/
theorem addField_pres (P : Field → Bool) (hB : NestedBlind P) (path : List String)
    (fieldId? : Option String) (fieldData : InitData) (st : MakerState)
    (hst : allFieldsB P st.backendObject = true)
    (hini : allInitB (fun i => P (buildRecordFlat i st.exampleCounter)) fieldData = true) :
    allFieldsB P (addField path fieldId? fieldData st).backendObject = true := by
  cases fieldData with
  | mk nm ty dyn pr dv evs nested =>
      rw [addField.eq_def]
      rw [allInitB_mk] at hini
      simp only [Bool.and_eq_true] at hini
      have hrec : allFieldB P (buildRecordFlat (.mk nm ty dyn pr dv evs nested)
          st.exampleCounter) = true := by
        rw [buildRecordFlat, allFieldB_mk, allFieldsB_nil]
        have := hini.1
        rw [buildRecordFlat] at this
        simp only [Bool.and_true]
        exact this
      refine addFieldList_pres P hB _ nested _ ?_ ?_
      · exact allFieldsB_updateMapAt P hB _
          (fun t ht => allFieldsB_insertAssoc P _ _ t hrec ht) path st.backendObject hst
      · exact hini.2
termination_by sizeOf fieldData

theorem addFieldList_pres (P : Field → Bool) (hB : NestedBlind P) (path : List String)
    (l : InitList) (st : MakerState)
    (hst : allFieldsB P st.backendObject = true)
    (hini : allInitListB (fun i => P (buildRecordFlat i st.exampleCounter)) l = true) :
    allFieldsB P (addFieldList path l st).backendObject = true := by
  match l with
  | .nil => rw [addFieldList]; exact hst
  | .cons nid ndata rest =>
      rw [addFieldList]
      rw [allInitListB] at hini
      simp only [Bool.and_eq_true] at hini
      have hec := addField_ec path (some nid) ndata st
      refine addFieldList_pres P hB path rest _ ?_ ?_
      · exact addField_pres P hB path (some nid) ndata st hst hini.1
      · rw [hec]
        exact hini.2
termination_by sizeOf l
end

/-! ### Example-count uniformity -/

theorem lenPred_blind (c : Int) :
    NestedBlind (fun f => (f.exampleValues.length : Int) == c) := by
  intro n t d p v e nf nf2
  rfl

theorem uniformLen_eq (t : Tree) (c : Int) :
    uniformLen t c = allFieldsB (fun f => (f.exampleValues.length : Int) == c) t := rfl

theorem buildRecordFlat_exampleValues (i : InitData) (c : Int) :
    (buildRecordFlat i c).exampleValues = defaultExampleValues i c := by
  cases i
  rfl

theorem buildRecordFlat_type (i : InitData) (c : Int) :
    (buildRecordFlat i c).type = jsOrStr i.type "String" := by
  cases i
  rfl

theorem rebuildFlat_exampleValues (g : Field) (c : Int) :
    (buildRecordFlat g.toInitData c).exampleValues = g.exampleValues := by
  cases g
  rfl

theorem create_uniform (path : List String) (i : InitData) (st : MakerState)
    (hnc : noCarriedExamples i = true) (h0 : 0 ≤ st.exampleCounter)
    (hu : uniformLen st.backendObject st.exampleCounter = true) :
    uniformLen (addField path none i st).backendObject st.exampleCounter = true := by
  rw [uniformLen_eq] at hu ⊢
  apply addField_pres _ (lenPred_blind _) _ _ _ _ hu
  apply allInitB_mono _ _ _ i hnc
  intro j hj
  show (((buildRecordFlat j st.exampleCounter).exampleValues.length : Int)
    == st.exampleCounter) = true
  rw [buildRecordFlat_exampleValues]
  cases hevs : j.exampleValues with
  | some evs => rw [hevs] at hj; exact absurd hj (by simp)
  | none =>
      simp only [defaultExampleValues, hevs]
      simp only [List.length_replicate, beq_iff_eq]
      exact Int.toNat_of_nonneg h0

mutual
theorem pushTree_uniform (t : Tree) (c : Int)
    (h : allFieldsB (fun f => (f.exampleValues.length : Int) == c) t = true) :
    allFieldsB (fun f => (f.exampleValues.length : Int) == (c + 1)) (pushExampleTree t) = true := by
  match t with
  | [] => rfl
  | (k, f) :: rest =>
      rw [allFieldsB_cons] at h
      simp only [Bool.and_eq_true] at h
      rw [pushExampleTree, allFieldsB_cons]
      simp only [Bool.and_eq_true]
      exact ⟨pushField_uniform f c h.1, pushTree_uniform rest c h.2⟩
termination_by sizeOf t

theorem pushField_uniform (f : Field) (c : Int)
    (h : allFieldB (fun f => (f.exampleValues.length : Int) == c) f = true) :
    allFieldB (fun f => (f.exampleValues.length : Int) == (c + 1)) (pushExampleField f) = true := by
  match f with
  | .mk n t d p v e nf =>
      rw [allFieldB_mk] at h
      simp only [Bool.and_eq_true] at h
      have hlen : (e.length : Int) = c := by
        have := h.1
        simp only [Field.exampleValues, beq_iff_eq] at this
        exact this
      rw [pushExampleField, allFieldB_mk]
      simp only [Bool.and_eq_true]
      constructor
      · simp only [Field.exampleValues, beq_iff_eq, List.length_append, List.length_cons,
          List.length_nil]
        push_cast
        omega
      · exact pushTree_uniform nf c h.2
termination_by sizeOf f
end

mutual
theorem popTree_uniform (t : Tree) (c : Int) (hc : 0 < c)
    (h : allFieldsB (fun f => (f.exampleValues.length : Int) == c) t = true) :
    allFieldsB (fun f => (f.exampleValues.length : Int) == (c - 1)) (popExampleTree t) = true := by
  match t with
  | [] => rfl
  | (k, f) :: rest =>
      rw [allFieldsB_cons] at h
      simp only [Bool.and_eq_true] at h
      rw [popExampleTree, allFieldsB_cons]
      simp only [Bool.and_eq_true]
      exact ⟨popField_uniform f c hc h.1, popTree_uniform rest c hc h.2⟩
termination_by sizeOf t

theorem popField_uniform (f : Field) (c : Int) (hc : 0 < c)
    (h : allFieldB (fun f => (f.exampleValues.length : Int) == c) f = true) :
    allFieldB (fun f => (f.exampleValues.length : Int) == (c - 1)) (popExampleField f) = true := by
  match f with
  | .mk n t d p v e nf =>
      rw [allFieldB_mk] at h
      simp only [Bool.and_eq_true] at h
      have hlen : (e.length : Int) = c := by
        have := h.1
        simp only [Field.exampleValues, beq_iff_eq] at this
        exact this
      have hpos : 0 < e.length := by omega
      rw [popExampleField, allFieldB_mk]
      simp only [Bool.and_eq_true]
      constructor
      · simp only [Field.exampleValues, beq_iff_eq, if_pos hpos, List.length_dropLast]
        omega
      · exact popTree_uniform nf c hc h.2
termination_by sizeOf f
end

mutual
theorem collectTree_ge (t : Tree) (c : Int) : c ≤ collectExampleTree t c := by
  match t with
  | [] => exact le_refl c
  | (k, f) :: rest =>
      rw [collectExampleTree]
      exact le_trans (collectField_ge f c) (collectTree_ge rest _)
termination_by sizeOf t

theorem collectField_ge (f : Field) (c : Int) : c ≤ collectExampleField f c := by
  match f with
  | .mk n t d p v e nf =>
      rw [collectExampleField]
      refine le_trans ?_ (collectTree_ge nf _)
      split
      · omega
      · exact le_refl c
termination_by sizeOf f
end

mutual
theorem collectTree_mono (t : Tree) (c c2 : Int) (h : c ≤ c2) :
    collectExampleTree t c ≤ collectExampleTree t c2 := by
  match t with
  | [] => exact h
  | (k, f) :: rest =>
      rw [collectExampleTree, collectExampleTree]
      exact collectTree_mono rest _ _ (collectField_mono f c c2 h)
termination_by sizeOf t

theorem collectField_mono (f : Field) (c c2 : Int) (h : c ≤ c2) :
    collectExampleField f c ≤ collectExampleField f c2 := by
  match f with
  | .mk n t d p v e nf =>
      rw [collectExampleField, collectExampleField]
      apply collectTree_mono
      split <;> split <;> omega
termination_by sizeOf f
end

mutual
theorem normalizeTree_uniform (t : Tree) (m : Int) (h : collectExampleTree t 0 ≤ m) :
    allFieldsB (fun f => (f.exampleValues.length : Int) == m) (normalizeExampleTree m t) = true := by
  match t with
  | [] => rfl
  | (k, f) :: rest =>
      rw [collectExampleTree] at h
      have hf : collectExampleField f 0 ≤ m :=
        le_trans (collectTree_ge rest _) h
      have hrest : collectExampleTree rest 0 ≤ m :=
        le_trans (collectTree_mono rest 0 _ (collectField_ge f 0)) h
      rw [normalizeExampleTree, allFieldsB_cons]
      simp only [Bool.and_eq_true]
      exact ⟨normalizeField_uniform f m hf, normalizeTree_uniform rest m hrest⟩
termination_by sizeOf t

theorem normalizeField_uniform (f : Field) (m : Int) (h : collectExampleField f 0 ≤ m) :
    allFieldB (fun f => (f.exampleValues.length : Int) == m) (normalizeExampleField m f) = true := by
  match f with
  | .mk n t d p v e nf =>
      rw [collectExampleField] at h
      have hc1 : (e.length : Int) ≤ (if (e.length : Int) > 0 then (e.length : Int) else 0) := by
        split <;> omega
      have hlen : (e.length : Int) ≤ m :=
        le_trans hc1 (le_trans (collectTree_ge nf _) h)
      have hnf : collectExampleTree nf 0 ≤ m := by
        refine le_trans (collectTree_mono nf 0 _ ?_) h
        split <;> omega
      rw [normalizeExampleField, allFieldB_mk]
      simp only [Bool.and_eq_true]
      constructor
      · simp only [Field.exampleValues, beq_iff_eq, List.length_append, List.length_replicate]
        have : ((m - (e.length : Int)).toNat : Int) = m - (e.length : Int) :=
          Int.toNat_of_nonneg (by omega)
        push_cast
        omega
      · exact normalizeTree_uniform nf m hnf
termination_by sizeOf f
end

theorem buildFields_ec (obj : Tree) (path : List String) (st : MakerState) :
    (buildFieldsFromObject obj path st).exampleCounter = st.exampleCounter := by
  induction obj generalizing st with
  | nil => rw [buildFieldsFromObject]
  | cons hd rest ih =>
      obtain ⟨k, f⟩ := hd
      rw [buildFieldsFromObject, ih, addField_ec]

theorem allFieldsB_updateEntry (P : Field → Bool) (k : String) (g : Field → Field)
    (hg : ∀ f, allFieldB P f = true → allFieldB P (g f) = true) (t : Tree)
    (ht : allFieldsB P t = true) : allFieldsB P (updateEntry k g t) = true := by
  induction t with
  | nil => exact rfl
  | cons hd tl ih =>
      obtain ⟨k1, f⟩ := hd
      rw [allFieldsB_cons] at ht
      simp only [Bool.and_eq_true] at ht
      rw [updateEntry, List.map_cons]
      by_cases hk : k1 = k
      · simp only [if_pos hk]
        rw [allFieldsB_cons]
        simp only [Bool.and_eq_true]
        exact ⟨hg f ht.1, by simpa [updateEntry] using ih ht.2⟩
      · simp only [if_neg hk]
        rw [allFieldsB_cons]
        simp only [Bool.and_eq_true]
        exact ⟨ht.1, by simpa [updateEntry] using ih ht.2⟩

theorem buildFields_pres (P : Field → Bool) (hB : NestedBlind P) (m : Int)
    (hQ : ∀ g : Field, P g = true → P (buildRecordFlat g.toInitData m) = true) :
    ∀ (obj : Tree) (st : MakerState), st.exampleCounter = m →
      allFieldsB P st.backendObject = true → allFieldsB P obj = true →
      allFieldsB P (buildFieldsFromObject obj [] st).backendObject = true := by
  intro obj
  induction obj with
  | nil =>
      intro st hm hst _
      rw [buildFieldsFromObject]
      exact hst
  | cons hd rest ih =>
      obtain ⟨k, f⟩ := hd
      intro st hm hst hobj
      rw [allFieldsB_cons] at hobj
      simp only [Bool.and_eq_true] at hobj
      rw [buildFieldsFromObject]
      apply ih
      · rw [addField_ec]
        exact hm
      · apply addField_pres P hB _ _ _ _ hst
        rw [hm]
        exact toInitData_all P _ (fun g hg => hQ g hg) f hobj.1
      · exact hobj.2

theorem populate_state (obj : Tree) (prior : MakerState) :
    (populateFromExistingObject obj prior).2 =
      buildFieldsFromObject (normalizeExampleTree (collectExampleTree obj 0) obj) []
        { backendObject := [], fieldCounter := 0,
          exampleCounter := collectExampleTree obj 0 } := rfl

theorem populate_obj (obj : Tree) (prior : MakerState) :
    (populateFromExistingObject obj prior).1 =
      normalizeExampleTree (collectExampleTree obj 0) obj := rfl

theorem populate_uniform (obj : Tree) (prior : MakerState) :
    0 ≤ (populateFromExistingObject obj prior).2.exampleCounter ∧
    uniformLen (populateFromExistingObject obj prior).2.backendObject
      (populateFromExistingObject obj prior).2.exampleCounter = true := by
  have hm0 : (0 : Int) ≤ collectExampleTree obj 0 := collectTree_ge obj 0
  have hec : (populateFromExistingObject obj prior).2.exampleCounter =
      collectExampleTree obj 0 := by
    rw [populate_state, buildFields_ec]
  constructor
  · rw [hec]
    exact hm0
  · rw [hec, populate_state, uniformLen_eq]
    apply buildFields_pres (fun f => ((f.exampleValues.length : Int) == collectExampleTree obj 0))
      (lenPred_blind _) (collectExampleTree obj 0)
    · intro g hg
      simp only [rebuildFlat_exampleValues]
      exact hg
    · rfl
    · rfl
    · exact normalizeTree_uniform obj _ (le_refl _)

theorem execOp_uniform (op : Op) (st : MakerState) (hok : okOpU st op = true)
    (h0 : 0 ≤ st.exampleCounter)
    (hu : uniformLen st.backendObject st.exampleCounter = true) :
    0 ≤ (execOp op st).exampleCounter ∧
      uniformLen (execOp op st).backendObject (execOp op st).exampleCounter = true := by
  cases op with
  | create path i =>
      have hec : (execOp (.create path i) st).exampleCounter = st.exampleCounter := by
        rw [execOp, addField_ec]
      rw [hec]
      refine ⟨h0, ?_⟩
      rw [execOp]
      exact create_uniform path i st (by simpa [okOpU] using hok) h0 hu
  | addRound =>
      refine ⟨by rw [execOp]; show 0 ≤ st.exampleCounter + 1; omega, ?_⟩
      rw [execOp]
      show uniformLen (pushExampleTree st.backendObject) (st.exampleCounter + 1) = true
      rw [uniformLen_eq]
      exact pushTree_uniform _ _ hu
  | removeRound =>
      have hpos : 0 < st.exampleCounter := by
        simpa [okOpU] using hok
      refine ⟨by rw [execOp]; show 0 ≤ st.exampleCounter - 1; omega, ?_⟩
      rw [execOp]
      show uniformLen (popExampleTree st.backendObject) (st.exampleCounter - 1) = true
      rw [uniformLen_eq]
      exact popTree_uniform _ _ hpos hu
  | deserialize obj =>
      exact populate_uniform obj st
  | setType path fid ty =>
      refine ⟨h0, ?_⟩
      rw [execOp]
      show uniformLen (updateMapAt path (updateEntry fid _) st.backendObject)
        st.exampleCounter = true
      rw [uniformLen_eq] at hu ⊢
      apply allFieldsB_updateMapAt _ (lenPred_blind _) _ ?_ path _ hu
      intro t ht
      apply allFieldsB_updateEntry _ _ _ ?_ _ ht
      intro f hf
      match f with
      | .mk n t2 d p v e nf =>
          rw [allFieldB_mk] at hf ⊢
          exact hf

theorem execOps_uniform (ops : List Op) :
    ∀ st : MakerState, admissibleU st ops = true → 0 ≤ st.exampleCounter →
      uniformLen st.backendObject st.exampleCounter = true →
      0 ≤ (execOps ops st).exampleCounter ∧
        uniformLen (execOps ops st).backendObject (execOps ops st).exampleCounter = true := by
  induction ops with
  | nil =>
      intro st _ h0 hu
      exact ⟨h0, hu⟩
  | cons op rest ih =>
      intro st hadm h0 hu
      rw [admissibleU] at hadm
      simp only [Bool.and_eq_true] at hadm
      rw [execOps]
      have hstep := execOp_uniform op st hadm.1 h0 hu
      exact ih (execOp op st) hadm.2 hstep.1 hstep.2

/-! ### Claim C1 -/

/-- C1 (amended): the example-count uniformity invariant — every field at
every depth has `exampleValues.length` equal to the global `exampleCounter` —
holds after any sequence of `create`, `addExampleRound`,
`removeExampleRound`, `deserialize` and `setType` operations, provided each
`create` is given field data that carries no `exampleValues` array at any
depth and `removeExampleRound` is only invoked while the counter is positive
(`admissibleU`).  As stated originally the claim is false: a `create` whose
`initialData` carries its own `exampleValues` array installs it verbatim
(`claim_C1_counterexample`), and `removeExampleRound` at counter zero drives
the counter to `-1` (claim C4). -/
theorem claim_C1_uniformity (ops : List Op) (h : admissibleU initState ops = true) :
    uniformLen (execOps ops initState).backendObject
      (execOps ops initState).exampleCounter = true :=
  (execOps_uniform ops initState h (by decide) (by decide)).2

/-- C1 counterexample: `create(null, {exampleValues: ["x"]})` on a fresh
model stores a field whose `exampleValues` has length 1 while the global
example-round counter is still 0, so uniformity fails after a sequence of the
operations the claim quantifies over. -/
theorem claim_C1_counterexample :
    uniformLen
      (execOps [.create [] (.mk none none none none none (some ["x"]) .nil)]
        initState).backendObject
      (execOps [.create [] (.mk none none none none none (some ["x"]) .nil)]
        initState).exampleCounter = false := by decide

/-- C1 witness: a concrete admissible sequence using every operation kind
keeps the tree uniform. -/
theorem claim_C1_witness :
    uniformLen
      (execOps [.create [] emptyInit, .addRound, .create [] emptyInit, .removeRound,
          .deserialize [("field-9", .mk "n" "String" true "" "" ["e1"] [])], .addRound]
        initState).backendObject
      (execOps [.create [] emptyInit, .addRound, .create [] emptyInit, .removeRound,
          .deserialize [("field-9", .mk "n" "String" true "" "" ["e1"] [])], .addRound]
        initState).exampleCounter = true :=
  claim_C1_uniformity
    [.create [] emptyInit, .addRound, .create [] emptyInit, .removeRound,
      .deserialize [("field-9", .mk "n" "String" true "" "" ["e1"] [])], .addRound]
    (by decide)

/-! ### Claim C4 -/

/-- C4: the source has no floor at zero.  On a fresh model with one field
(counter 0, `exampleValues` empty), `removeExampleValueFromAllFields` pops
nothing from the (already empty) arrays but still runs
`this.exampleCounter--`, driving the counter to `-1` — not the claimed no-op
at zero.  A subsequent `addExampleValueToAllFields` then leaves the counter
at `0` while every field's `exampleValues` has length 1, so uniformity is not
restored with counter one. -/
theorem claim_C4_no_floor :
    (removeExampleValueFromAllFields (execOps [.create [] emptyInit] initState)).exampleCounter
        = -1 ∧
    uniformLen (removeExampleValueFromAllFields
        (execOps [.create [] emptyInit] initState)).backendObject 0 = true ∧
    (addExampleValueToAllFields (removeExampleValueFromAllFields
        (execOps [.create [] emptyInit] initState))).exampleCounter = 0 ∧
    uniformLen (addExampleValueToAllFields (removeExampleValueFromAllFields
        (execOps [.create [] emptyInit] initState))).backendObject
      (addExampleValueToAllFields (removeExampleValueFromAllFields
        (execOps [.create [] emptyInit] initState))).exampleCounter = false := by
  refine ⟨by decide, by decide, by decide, by decide⟩

/-! ### Claim C3 -/

/-- C3 (amended): `triggerSaveCallback` invokes the save callback with
`this.backendObject` itself — the live mapping, not an independent deep copy
— so a mutation of the live tree after a serialize call is visible through
the reference the callback received. -/
theorem claim_C3_alias (st : MakerState) : triggerSaveCallback st = st.backendObject := rfl

/-- C3 counterexample: serialize a one-field model (the callback receives the
live `backendObject`), then rename the field.  The mapping reachable through
the handed-out reference now shows the new name, differing from its content
at snapshot time — the snapshot is not an independent copy. -/
theorem claim_C3_counterexample :
    (lookupPath ["field-0"] (triggerSaveCallback
        (validateFieldName "renamed" "field-0" []
          (execOps [.create [] emptyInit] initState)).2)).map Field.name ≠
      (lookupPath ["field-0"] (triggerSaveCallback
        (execOps [.create [] emptyInit] initState))).map Field.name := by decide

/-! ### Claim C5 -/

/-- C5: deserialization of a malformed stored mapping can leave the model
partially built.  On `malformedStored` (field `f1` well-formed, field `f2`
with `exampleValues: 5`), both passes succeed (`(5).length` is `undefined`),
and the rebuild inserts `f1`, then throws spreading `f2`'s example values
(`5` is not iterable).  The catch reports the load failure, but
`backendObject` is left holding `f1` only — neither the prior state (`p0`)
nor an empty tree, and not all of the two stored fields. -/
theorem claim_C5_partial_state :
    (populateJ 100 malformedStored priorJState).2.2 = false ∧
    (populateJ 100 malformedStored priorJState).2.1.backendObject.map Prod.fst = ["f1"] ∧
    (objEntries malformedStored).toOption.map (List.map Prod.fst) = some ["f1", "f2"] ∧
    priorJState.backendObject.map Prod.fst = ["p0"] := by
  refine ⟨by decide, by decide, by decide, by decide⟩

/-! ### Stored-type space -/

theorem typesWithin_eq (t : Tree) (S : List String) :
    typesWithin t S = allFieldsB (fun f => S.contains f.type) t := rfl

theorem typePred_blind (S : List String) : NestedBlind (fun f => S.contains f.type) := by
  intro n t d p v e nf nf2
  rfl

theorem typePred_attr (S : List String) : AttrBlind (fun f => S.contains f.type) := by
  intro n t d p v e nf e2 nf2
  rfl

mutual
theorem pushTree_attr (P : Field → Bool) (hA : AttrBlind P) (t : Tree)
    (h : allFieldsB P t = true) : allFieldsB P (pushExampleTree t) = true := by
  match t with
  | [] => rfl
  | (k, f) :: rest =>
      rw [allFieldsB_cons] at h
      simp only [Bool.and_eq_true] at h
      rw [pushExampleTree, allFieldsB_cons]
      simp only [Bool.and_eq_true]
      exact ⟨pushField_attr P hA f h.1, pushTree_attr P hA rest h.2⟩
termination_by sizeOf t

theorem pushField_attr (P : Field → Bool) (hA : AttrBlind P) (f : Field)
    (h : allFieldB P f = true) : allFieldB P (pushExampleField f) = true := by
  match f with
  | .mk n t d p v e nf =>
      rw [allFieldB_mk] at h
      simp only [Bool.and_eq_true] at h
      rw [pushExampleField, allFieldB_mk]
      simp only [Bool.and_eq_true]
      exact ⟨by rw [hA n t d p v (e ++ [""]) (pushExampleTree nf) e nf]; exact h.1,
        pushTree_attr P hA nf h.2⟩
termination_by sizeOf f
end

mutual
theorem popTree_attr (P : Field → Bool) (hA : AttrBlind P) (t : Tree)
    (h : allFieldsB P t = true) : allFieldsB P (popExampleTree t) = true := by
  match t with
  | [] => rfl
  | (k, f) :: rest =>
      rw [allFieldsB_cons] at h
      simp only [Bool.and_eq_true] at h
      rw [popExampleTree, allFieldsB_cons]
      simp only [Bool.and_eq_true]
      exact ⟨popField_attr P hA f h.1, popTree_attr P hA rest h.2⟩
termination_by sizeOf t

theorem popField_attr (P : Field → Bool) (hA : AttrBlind P) (f : Field)
    (h : allFieldB P f = true) : allFieldB P (popExampleField f) = true := by
  match f with
  | .mk n t d p v e nf =>
      rw [allFieldB_mk] at h
      simp only [Bool.and_eq_true] at h
      rw [popExampleField, allFieldB_mk]
      simp only [Bool.and_eq_true]
      exact ⟨by rw [hA n t d p v _ (popExampleTree nf) e nf]; exact h.1,
        popTree_attr P hA nf h.2⟩
termination_by sizeOf f
end

mutual
theorem normalizeTree_attr (P : Field → Bool) (hA : AttrBlind P) (m : Int) (t : Tree)
    (h : allFieldsB P t = true) : allFieldsB P (normalizeExampleTree m t) = true := by
  match t with
  | [] => rfl
  | (k, f) :: rest =>
      rw [allFieldsB_cons] at h
      simp only [Bool.and_eq_true] at h
      rw [normalizeExampleTree, allFieldsB_cons]
      simp only [Bool.and_eq_true]
      exact ⟨normalizeField_attr P hA m f h.1, normalizeTree_attr P hA m rest h.2⟩
termination_by sizeOf t

theorem normalizeField_attr (P : Field → Bool) (hA : AttrBlind P) (m : Int) (f : Field)
    (h : allFieldB P f = true) : allFieldB P (normalizeExampleField m f) = true := by
  match f with
  | .mk n t d p v e nf =>
      rw [allFieldB_mk] at h
      simp only [Bool.and_eq_true] at h
      rw [normalizeExampleField, allFieldB_mk]
      simp only [Bool.and_eq_true]
      exact ⟨by rw [hA n t d p v _ (normalizeExampleTree m nf) e nf]; exact h.1,
        normalizeTree_attr P hA m nf h.2⟩
termination_by sizeOf f
end

theorem selectOption_sub (ty : String) (h : selectOptionValues.contains ty = true) :
    storedTypeSpace.contains ty = true := by
  rw [storedTypeSpace]
  simp only [List.contains_cons, Bool.or_eq_true]
  exact Or.inr h

theorem jsOrStr_stored (o : Option String) (S : List String)
    (hS : S.contains "String" = true)
    (h : ∀ ty, o = some ty → S.contains ty = true) :
    S.contains (jsOrStr o "String") = true := by
  cases o with
  | none => exact hS
  | some ty =>
      rw [jsOrStr]
      split
      · exact hS
      · exact h ty rfl

theorem create_types (path : List String) (i : InitData) (st : MakerState)
    (hi : initTypesWithin i storedTypeSpace = true)
    (ht : typesWithin st.backendObject storedTypeSpace = true) :
    typesWithin (addField path none i st).backendObject storedTypeSpace = true := by
  rw [typesWithin_eq] at ht ⊢
  apply addField_pres _ (typePred_blind _) _ _ _ _ ht
  apply allInitB_mono _ _ _ i hi
  intro j hj
  show storedTypeSpace.contains (buildRecordFlat j st.exampleCounter).type = true
  rw [buildRecordFlat_type]
  apply jsOrStr_stored _ _ (by decide)
  intro ty hty
  rw [hty] at hj
  simpa using hj

theorem populate_types (obj : Tree) (prior : MakerState)
    (hobj : typesWithin obj storedTypeSpace = true) :
    typesWithin (populateFromExistingObject obj prior).2.backendObject storedTypeSpace = true := by
  rw [populate_state, typesWithin_eq]
  apply buildFields_pres (fun f => storedTypeSpace.contains f.type) (typePred_blind _)
    (collectExampleTree obj 0)
  · intro g hg
    show storedTypeSpace.contains (buildRecordFlat g.toInitData _).type = true
    rw [buildRecordFlat_type]
    have hsome : g.toInitData.type = some g.type := by
      cases g
      rfl
    rw [hsome]
    apply jsOrStr_stored _ _ (by decide)
    intro ty hty
    cases hty
    exact hg
  · rfl
  · rfl
  · rw [typesWithin_eq] at hobj
    exact normalizeTree_attr _ (typePred_attr _) _ obj hobj

theorem execOp_types (op : Op) (st : MakerState) (hok : okOpT op = true)
    (ht : typesWithin st.backendObject storedTypeSpace = true) :
    typesWithin (execOp op st).backendObject storedTypeSpace = true := by
  cases op with
  | create path i =>
      rw [execOp]
      exact create_types path i st (by simpa [okOpT] using hok) ht
  | addRound =>
      rw [execOp]
      show typesWithin (pushExampleTree st.backendObject) _ = true
      rw [typesWithin_eq] at ht ⊢
      exact pushTree_attr _ (typePred_attr _) _ ht
  | removeRound =>
      rw [execOp]
      show typesWithin (popExampleTree st.backendObject) _ = true
      rw [typesWithin_eq] at ht ⊢
      exact popTree_attr _ (typePred_attr _) _ ht
  | deserialize obj =>
      rw [execOp]
      exact populate_types obj st (by simpa [okOpT] using hok)
  | setType path fid ty =>
      rw [execOp]
      show typesWithin (updateMapAt path (updateEntry fid _) st.backendObject) _ = true
      rw [typesWithin_eq] at ht ⊢
      apply allFieldsB_updateMapAt _ (typePred_blind _) _ ?_ path _ ht
      intro t2 ht2
      apply allFieldsB_updateEntry _ _ _ ?_ _ ht2
      intro f hf
      match f with
      | .mk n t3 d p v e nf =>
          rw [allFieldB_mk] at hf ⊢
          simp only [Bool.and_eq_true] at hf ⊢
          refine ⟨?_, hf.2⟩
          show storedTypeSpace.contains (Field.mk n ty d p v e nf).type = true
          show storedTypeSpace.contains ty = true
          exact selectOption_sub ty (by simpa [okOpT] using hok)

theorem execOps_types (ops : List Op) :
    ∀ st : MakerState, admissibleT ops = true →
      typesWithin st.backendObject storedTypeSpace = true →
      typesWithin (execOps ops st).backendObject storedTypeSpace = true := by
  induction ops with
  | nil =>
      intro st _ ht
      exact ht
  | cons op rest ih =>
      intro st hadm ht
      rw [admissibleT] at hadm
      simp only [Bool.and_eq_true] at hadm
      rw [execOps]
      exact ih (execOp op st) hadm.2 (execOp_types op st hadm.1 ht)

/-! ### Claim C9 -/

/-- C9 (amended): the stored `type` attribute is not confined to a single
five-value enumeration.  `addField` stores the *display* value `"String"`
(`FIELD_TYPES.STRING`) when no type is carried, while the type `<select>`
delivers the enumeration *keys* (`"STRING"`, `"ARRAY"`, `"OBJECT"`,
`"FOR_EACH_OBJECT"`, `"ARRAY_OBJECT"`) to `selectFieldType`.  After any
sequence of operations whose carried types lie in that six-value space, every
field's `type`, at every depth, lies in `storedTypeSpace = {"String"} ∪
keys`; the nesting predicate `NESTING_FIELD_TYPES.includes(type)` holds
exactly for the three nesting keys, which lie in the select's key space and
never match the default stored type `"String"`. -/
theorem claim_C9_type_space (ops : List Op) (h : admissibleT ops = true) :
    typesWithin (execOps ops initState).backendObject storedTypeSpace = true ∧
    (∀ ty : String, isNestingType ty = true ↔ ty ∈ NESTING_FIELD_TYPES) ∧
    isNestingType "String" = false ∧
    (∀ ty ∈ NESTING_FIELD_TYPES, ty ∈ selectOptionValues) := by
  refine ⟨execOps_types ops initState h (by decide), ?_, by decide, by decide⟩
  intro ty
  rw [isNestingType]
  exact List.elem_iff

/-- C9 counterexample: after `create(null, {})` (stored type `"String"`, the
display value) and `setType` to the select value `"OBJECT"` (an enumeration
key) on a second field, the stored types are not all members of the key
enumeration, nor all members of the display-value enumeration — there is no
single five-value space containing every stored type. -/
theorem claim_C9_counterexample :
    typesWithin (execOps [.create [] emptyInit, .create [] emptyInit,
        .setType [] "field-1" "OBJECT"] initState).backendObject
      (FIELD_TYPES.map Prod.fst) = false ∧
    typesWithin (execOps [.create [] emptyInit, .create [] emptyInit,
        .setType [] "field-1" "OBJECT"] initState).backendObject
      (FIELD_TYPES.map Prod.snd) = false ∧
    selectOptionValues.contains "OBJECT" = true := by
  refine ⟨by decide, by decide, by decide⟩

/-- C9 witness: a concrete admissible sequence with an explicitly carried
type, a select retype and a reload stays inside the six-value stored-type
space. -/
theorem claim_C9_witness :
    typesWithin (execOps [.create [] (.mk none (some "STRING") none none none none .nil),
        .setType [] "field-0" "ARRAY_OBJECT",
        .deserialize [("field-2", .mk "n" "OBJECT" true "" "" [] [])]]
      initState).backendObject storedTypeSpace = true ∧ isNestingType "OBJECT" = true :=
  ⟨(claim_C9_type_space [.create [] (.mk none (some "STRING") none none none none .nil),
      .setType [] "field-0" "ARRAY_OBJECT",
      .deserialize [("field-2", .mk "n" "OBJECT" true "" "" [] [])]] (by decide)).1,
    by decide⟩

/-! ### Path lookup through mutation -/

theorem lookup_map_key (t : Tree) (pk k : String) (h : Field → Field) :
    lookupAssoc k (t.map (fun p => if p.1 = pk then (p.1, h p.2) else p)) =
      if k = pk then (lookupAssoc k t).map h else lookupAssoc k t := by
  induction t with
  | nil => by_cases hk : k = pk <;> simp [hk, lookupAssoc]
  | cons hd tl ih =>
      obtain ⟨k1, f⟩ := hd
      rw [List.map_cons]
      by_cases h1 : k1 = pk
      · rw [if_pos h1]
        by_cases h2 : k = k1
        · rw [lookupAssoc, if_pos h2, lookupAssoc, if_pos h2, if_pos (h2.trans h1)]
          rfl
        · rw [lookupAssoc, if_neg h2, ih]
          by_cases h3 : k = pk
          · rw [if_pos h3, if_pos h3, lookupAssoc, if_neg h2]
          · rw [if_neg h3, if_neg h3, lookupAssoc, if_neg h2]
      · rw [if_neg h1]
        by_cases h2 : k = k1
        · have h3 : ¬(k = pk) := fun hc => h1 (h2.symm.trans hc)
          rw [lookupAssoc, if_pos h2, if_neg h3, lookupAssoc, if_pos h2]
        · rw [lookupAssoc, if_neg h2, ih]
          by_cases h3 : k = pk
          · rw [if_pos h3, if_pos h3, lookupAssoc, if_neg h2]
          · rw [if_neg h3, if_neg h3, lookupAssoc, if_neg h2]

theorem lookupAssoc_updateMapAt_cons (pk k : String) (rest : List String)
    (g : Tree → Tree) (t : Tree) :
    lookupAssoc k (t.map (fun p =>
        if p.1 = pk then (p.1, p.2.setNested (updateMapAt rest g p.2.nestedFields)) else p)) =
      if k = pk then
        (lookupAssoc k t).map (fun f => f.setNested (updateMapAt rest g f.nestedFields))
      else lookupAssoc k t :=
  lookup_map_key t pk k (fun f => f.setNested (updateMapAt rest g f.nestedFields))

theorem lookupPath_cons (k : String) (q : List String) (hq : q ≠ []) (t : Tree) :
    lookupPath (k :: q) t =
      match lookupAssoc k t with
      | none => none
      | some f => lookupPath q f.nestedFields := by
  cases q with
  | nil => exact absurd rfl hq
  | cons q1 qrest => rfl

theorem lookupPath_updateEntry (path : List String) (k : String) (g : Field → Field)
    (t : Tree) :
    lookupPath (path ++ [k]) (updateMapAt path (updateEntry k g) t) =
      (lookupPath (path ++ [k]) t).map g := by
  induction path generalizing t with
  | nil =>
      show lookupPath [k] (updateEntry k g t) = (lookupPath [k] t).map g
      rw [lookupPath, lookupPath, updateEntry, lookup_map_key, if_pos rfl]
  | cons pk prest ih =>
      rw [List.cons_append,
        lookupPath_cons pk (prest ++ [k]) (by simp) _,
        lookupPath_cons pk (prest ++ [k]) (by simp) t]
      rw [updateMapAt, lookupAssoc_updateMapAt_cons, if_pos rfl]
      cases hpk : lookupAssoc pk t with
      | none => rfl
      | some f =>
          show lookupPath (prest ++ [k])
              ((f.setNested (updateMapAt prest (updateEntry k g) f.nestedFields)).nestedFields)
            = _
          rw [setNested_nestedFields]
          exact ih f.nestedFields

/-! ### Claim C6 -/

/-- C6: `validateFieldName` rejects a name holding a double quote — the model
state is returned unchanged (the field keeps its name), the result is the
flagged value `false` (the source additionally warns and raises a toastr
notice; no exception is thrown) — while any name without a double quote is
written to the field's `name` attribute and the result is `true`. -/
theorem claim_C6_rename (name fieldId : String) (path : List String) (st : MakerState) :
    (name.data.contains '"' = true →
      validateFieldName name fieldId path st = (false, st)) ∧
    (name.data.contains '"' = false →
      (validateFieldName name fieldId path st).1 = true ∧
      (lookupPath (path ++ [fieldId])
          (validateFieldName name fieldId path st).2.backendObject).map Field.name =
        (lookupPath (path ++ [fieldId]) st.backendObject).map (fun _ => name)) := by
  constructor
  · intro h
    rw [validateFieldName, if_pos h]
  · intro h
    have hneg : ¬(name.data.contains '"' = true) := by
      rw [h]
      exact Bool.false_ne_true
    constructor
    · rw [validateFieldName, if_neg hneg]
    · rw [validateFieldName, if_neg hneg]
      show (lookupPath (path ++ [fieldId]) (updateMapAt path (updateEntry fieldId _)
        st.backendObject)).map Field.name = _
      rw [lookupPath_updateEntry]
      cases lookupPath (path ++ [fieldId]) st.backendObject with
      | none => rfl
      | some f =>
          cases f
          rfl

/-- C6 witness: on a concrete one-field model, a quoted name is rejected with
the state unchanged, and a plain name is written and reported successful. -/
theorem claim_C6_witness :
    validateFieldName "a\"b" "field-0" [] (execOps [.create [] emptyInit] initState)
        = (false, execOps [.create [] emptyInit] initState) ∧
    (validateFieldName "valid name" "field-0" []
        (execOps [.create [] emptyInit] initState)).1 = true ∧
    (lookupPath ["field-0"] (validateFieldName "valid name" "field-0" []
        (execOps [.create [] emptyInit] initState)).2.backendObject).map Field.name
      = some "valid name" :=
  ⟨(claim_C6_rename "a\"b" "field-0" [] (execOps [.create [] emptyInit] initState)).1
      (by decide),
    ((claim_C6_rename "valid name" "field-0" [] (execOps [.create [] emptyInit] initState)).2
      (by decide)).1,
    (((claim_C6_rename "valid name" "field-0" [] (execOps [.create [] emptyInit] initState)).2
      (by decide)).2).trans (by decide)⟩

/-! ### Claim C8 -/

theorem stripNested_setNested (f : Field) (x : Tree) :
    stripNested (f.setNested x) = stripNested f := by
  cases f
  rfl

theorem lookupAssoc_delete_self (fid : String) (t : Tree) :
    lookupAssoc fid (deleteAssoc fid t) = none := by
  induction t with
  | nil => rfl
  | cons hd tl ih =>
      obtain ⟨k1, f⟩ := hd
      rw [deleteAssoc, List.filter_cons]
      by_cases hk : k1 = fid
      · have hc : (decide ((k1, f).1 ≠ fid)) = false := by simp [hk]
        rw [hc, if_neg Bool.false_ne_true]
        simpa [deleteAssoc] using ih
      · have hc : (decide ((k1, f).1 ≠ fid)) = true := by simp [hk]
        rw [hc, if_pos rfl, lookupAssoc, if_neg (fun hcc => hk hcc.symm)]
        simpa [deleteAssoc] using ih

theorem lookupAssoc_delete_ne (k fid : String) (h : ¬k = fid) (t : Tree) :
    lookupAssoc k (deleteAssoc fid t) = lookupAssoc k t := by
  induction t with
  | nil => rfl
  | cons hd tl ih =>
      obtain ⟨k1, f⟩ := hd
      rw [deleteAssoc, List.filter_cons]
      by_cases hk : k1 = fid
      · have hc : (decide ((k1, f).1 ≠ fid)) = false := by simp [hk]
        rw [hc, if_neg Bool.false_ne_true, lookupAssoc,
          if_neg (fun hcc => h (hcc.trans hk))]
        simpa [deleteAssoc] using ih
      · have hc : (decide ((k1, f).1 ≠ fid)) = true := by simp [hk]
        rw [hc, if_pos rfl, lookupAssoc, lookupAssoc]
        by_cases h2 : k = k1
        · rw [if_pos h2, if_pos h2]
        · rw [if_neg h2, if_neg h2]
          simpa [deleteAssoc] using ih

theorem isPrefixOf_append_singleton_nil (l : List String) (a : String) :
    ((l ++ [a]).isPrefixOf ([] : List String)) = false := by
  cases l <;> rfl

theorem lookupPath_deleteAt (path : List String) (fid : String) :
    ∀ (q : List String) (t : Tree),
    (lookupPath q (updateMapAt path (deleteAssoc fid) t)).map stripNested =
      if (path ++ [fid]).isPrefixOf q then none
      else (lookupPath q t).map stripNested := by
  induction path with
  | nil =>
      intro q t
      cases q with
      | nil =>
          rw [show (([] ++ [fid] : List String).isPrefixOf []) = false from rfl,
            if_neg Bool.false_ne_true]
          rfl
      | cons k qrest =>
          show (lookupPath (k :: qrest) (deleteAssoc fid t)).map stripNested = _
          by_cases hk : k = fid
          · subst hk
            have hpre : (([] ++ [k] : List String).isPrefixOf (k :: qrest)) = true := by
              show ((k == k) && (([] : List String).isPrefixOf qrest)) = true
              simp [List.isPrefixOf]
            rw [hpre, if_pos rfl]
            cases qrest with
            | nil =>
                show (lookupAssoc k (deleteAssoc k t)).map stripNested = none
                rw [lookupAssoc_delete_self]
                rfl
            | cons q2 qrest2 =>
                rw [lookupPath_cons _ _ (by simp), lookupAssoc_delete_self]
                rfl
          · have hpre : (([] ++ [fid] : List String).isPrefixOf (k :: qrest)) = false := by
              show ((fid == k) && (([] : List String).isPrefixOf qrest)) = false
              simp [beq_false_of_ne (fun hc => hk hc.symm)]
            rw [hpre, if_neg Bool.false_ne_true]
            cases qrest with
            | nil =>
                show (lookupAssoc k (deleteAssoc fid t)).map stripNested =
                  (lookupAssoc k t).map stripNested
                rw [lookupAssoc_delete_ne k fid hk]
            | cons q2 qrest2 =>
                rw [lookupPath_cons _ _ (by simp), lookupPath_cons _ _ (by simp),
                  lookupAssoc_delete_ne k fid hk]
  | cons pk prest ih =>
      intro q t
      cases q with
      | nil =>
          rw [show ((pk :: prest ++ [fid]).isPrefixOf ([] : List String)) = false from rfl,
            if_neg Bool.false_ne_true]
          rfl
      | cons k qrest =>
          rw [List.cons_append]
          by_cases hk : k = pk
          · subst hk
            have hpre : ((k :: (prest ++ [fid])).isPrefixOf (k :: qrest)) =
                ((prest ++ [fid]).isPrefixOf qrest) := by
              show ((k == k) && ((prest ++ [fid]).isPrefixOf qrest)) = _
              simp
            rw [hpre]
            cases qrest with
            | nil =>
                rw [isPrefixOf_append_singleton_nil prest fid, if_neg Bool.false_ne_true]
                show (lookupAssoc k (updateMapAt (k :: prest) (deleteAssoc fid) t)).map
                    stripNested = (lookupAssoc k t).map stripNested
                rw [updateMapAt, lookupAssoc_updateMapAt_cons, if_pos rfl]
                cases lookupAssoc k t with
                | none => rfl
                | some f =>
                    show some (stripNested (f.setNested _)) = some (stripNested f)
                    rw [stripNested_setNested]
            | cons q2 qrest2 =>
                rw [lookupPath_cons _ _ (by simp), lookupPath_cons _ _ (by simp)]
                rw [updateMapAt, lookupAssoc_updateMapAt_cons, if_pos rfl]
                cases hpk : lookupAssoc k t with
                | none =>
                    cases ((prest ++ [fid]).isPrefixOf (q2 :: qrest2)) with
                    | false => rw [if_neg Bool.false_ne_true]; rfl
                    | true => rw [if_pos rfl]; rfl
                | some f =>
                    show (lookupPath (q2 :: qrest2)
                        ((f.setNested (updateMapAt prest (deleteAssoc fid)
                          f.nestedFields)).nestedFields)).map stripNested = _
                    rw [setNested_nestedFields]
                    exact ih (q2 :: qrest2) f.nestedFields
          · have hpre : ((pk :: (prest ++ [fid])).isPrefixOf (k :: qrest)) = false := by
              show ((pk == k) && ((prest ++ [fid]).isPrefixOf qrest)) = false
              simp [beq_false_of_ne (fun hc => hk hc.symm)]
            rw [hpre, if_neg Bool.false_ne_true]
            cases qrest with
            | nil =>
                show (lookupAssoc k (updateMapAt (pk :: prest) (deleteAssoc fid) t)).map
                    stripNested = (lookupAssoc k t).map stripNested
                rw [updateMapAt, lookupAssoc_updateMapAt_cons, if_neg hk]
            | cons q2 qrest2 =>
                rw [lookupPath_cons _ _ (by simp), lookupPath_cons _ _ (by simp)]
                rw [updateMapAt, lookupAssoc_updateMapAt_cons, if_neg hk]

/-- C8: after the confirmed branch of `removeField(fieldId, parentObject)` —
`delete parentObject[fieldId]` on the mapping addressed by `path` — a lookup
of any id path `q` behaves as follows: every path into the removed entry
(`path ++ [fieldId]` and all of its extensions) resolves to nothing, so
neither the removed field nor any of its descendants is reachable from the
root mapping, and every other path resolves to a field with the same
attributes as before (ancestors of the removed field keep their attributes;
only their `nestedFields` mappings shrink, which `stripNested` factors
out). -/
theorem claim_C8_remove_subtree (st : MakerState) (path : List String) (fieldId : String)
    (q : List String) :
    (lookupPath q (removeField true path fieldId st).backendObject).map stripNested =
      if (path ++ [fieldId]).isPrefixOf q then none
      else (lookupPath q st.backendObject).map stripNested := by
  show (lookupPath q (updateMapAt path (deleteAssoc fieldId) st.backendObject)).map
      stripNested = _
  exact lookupPath_deleteAt path fieldId q st.backendObject

/-! ### Claim C10 -/

theorem lookupAssoc_normalize (k : String) (m : Int) (t : Tree) :
    lookupAssoc k (normalizeExampleTree m t) =
      (lookupAssoc k t).map (normalizeExampleField m) := by
  induction t with
  | nil => rfl
  | cons hd tl ih =>
      obtain ⟨k1, f⟩ := hd
      rw [normalizeExampleTree, lookupAssoc, lookupAssoc]
      by_cases h : k = k1
      · rw [if_pos h, if_pos h]
        rfl
      · rw [if_neg h, if_neg h]
        exact ih

theorem normalizeField_nestedFields (m : Int) (f : Field) :
    (normalizeExampleField m f).nestedFields = normalizeExampleTree m f.nestedFields := by
  cases f
  rfl

theorem normalizeField_exampleValues (m : Int) (f : Field) :
    (normalizeExampleField m f).exampleValues =
      f.exampleValues ++ List.replicate ((m - f.exampleValues.length).toNat) "" := by
  cases f
  rfl

theorem lookupPath_normalize (q : List String) (m : Int) :
    ∀ t : Tree, lookupPath q (normalizeExampleTree m t) =
      (lookupPath q t).map (normalizeExampleField m) := by
  induction q with
  | nil => intro t; rfl
  | cons k qrest ih =>
      intro t
      cases qrest with
      | nil =>
          show lookupAssoc k (normalizeExampleTree m t) = _
          exact lookupAssoc_normalize k m t
      | cons q2 qr2 =>
          rw [lookupPath_cons _ _ (by simp), lookupPath_cons _ _ (by simp),
            lookupAssoc_normalize]
          cases lookupAssoc k t with
          | none => rfl
          | some f =>
              show lookupPath (q2 :: qr2) ((normalizeExampleField m f).nestedFields) = _
              rw [normalizeField_nestedFields]
              exact ih f.nestedFields

/-- C10: `populateFromExistingObject` normalizes the caller's `existingObject`
by mutating it in place: for every field of the stored mapping whose
`exampleValues` is shorter than the maximum length found anywhere in the
mapping, the object the caller still holds after the call shows that field's
array padded with empty strings up to the maximum — it no longer equals the
array that was passed in — and the live tree is rebuilt from that mutated
object (the rebuild consumes the normalized mapping, so the padding happens
before the rebuild). -/
theorem claim_C10_input_mutation (obj : Tree) (prior : MakerState) (q : List String)
    (f : Field) (hq : lookupPath q obj = some f)
    (hlt : (f.exampleValues.length : Int) < collectExampleTree obj 0) :
    (lookupPath q (populateFromExistingObject obj prior).1).map Field.exampleValues =
      some (f.exampleValues ++
        List.replicate ((collectExampleTree obj 0 - f.exampleValues.length).toNat) "") ∧
    (lookupPath q (populateFromExistingObject obj prior).1).map Field.exampleValues ≠
      some f.exampleValues ∧
    (populateFromExistingObject obj prior).2 =
      buildFieldsFromObject (populateFromExistingObject obj prior).1 []
        { backendObject := [], fieldCounter := 0,
          exampleCounter := collectExampleTree obj 0 } := by
  have h1 : (lookupPath q (populateFromExistingObject obj prior).1).map Field.exampleValues =
      some (f.exampleValues ++
        List.replicate ((collectExampleTree obj 0 - f.exampleValues.length).toNat) "") := by
    rw [populate_obj, lookupPath_normalize, hq]
    show some ((normalizeExampleField _ f).exampleValues) = _
    rw [normalizeField_exampleValues]
  refine ⟨h1, ?_, rfl⟩
  rw [h1]
  intro hc
  have hlen := congrArg (fun o => (Option.map List.length o).getD 0) hc
  simp only [Option.map_some', Option.getD_some, List.length_append,
    List.length_replicate] at hlen
  have hpad : ((collectExampleTree obj 0 - (f.exampleValues.length : Int)).toNat) = 0 := by
    omega
  rw [Int.toNat_eq_zero] at hpad
  omega

/-- C10 witness: loading a mapping whose `f1` has two example values and
whose `f2` has none leaves the caller's object with `f2.exampleValues`
padded to `["", ""]`. -/
theorem claim_C10_witness :
    (lookupPath ["f2"] (populateFromExistingObject
        [("f1", .mk "a" "String" true "" "" ["x", "y"] []),
         ("f2", .mk "b" "String" true "" "" [] [])] initState).1).map Field.exampleValues
      = some ["", ""] :=
  (claim_C10_input_mutation
      [("f1", .mk "a" "String" true "" "" ["x", "y"] []),
       ("f2", .mk "b" "String" true "" "" [] [])] initState ["f2"]
      (.mk "b" "String" true "" "" [] []) rfl (by decide)).1.trans (by decide)

/-! ### Claim C7 -/

theorem bumpCounter_ge (k : String) (c : Nat) : c ≤ bumpCounter k c := by
  rcases hp : parseIdNum k with _ | m
  · simp only [bumpCounter, hp]
    exact le_refl c
  · simp only [bumpCounter, hp]
    split <;> omega

theorem bumpCounter_gt (k : String) (c n : Nat) (h : parseIdNum k = some n) :
    n < bumpCounter k c := by
  simp only [bumpCounter, h]
  split <;> omega

mutual
theorem bumpField_ge (k : String) (f : Field) (c : Nat) : c ≤ bumpField k f c := by
  match f with
  | .mk nm t d p v e nf =>
      rw [bumpField]
      exact le_trans (bumpCounter_ge k c) (bumpTree_ge nf _)
termination_by sizeOf f

theorem bumpTree_ge (t : Tree) (c : Nat) : c ≤ bumpTree t c := by
  match t with
  | [] => exact le_refl c
  | (k, f) :: rest =>
      rw [bumpTree]
      exact le_trans (bumpField_ge k f c) (bumpTree_ge rest _)
termination_by sizeOf t
end

mutual
theorem keybound_field (kf k : String) (f : Field) (c n : Nat)
    (hk : k ∈ allKeysField f) (hp : parseIdNum k = some n) : n < bumpField kf f c := by
  match f with
  | .mk nm t d p v e nf =>
      rw [allKeysField] at hk
      rw [bumpField]
      exact keybound_tree k nf (bumpCounter kf c) n hk hp
termination_by sizeOf f

theorem keybound_tree (k : String) (t : Tree) (c n : Nat)
    (hk : k ∈ allKeysTree t) (hp : parseIdNum k = some n) : n < bumpTree t c := by
  match t with
  | [] =>
      rw [allKeysTree] at hk
      exact absurd hk (List.not_mem_nil k)
  | (k1, f) :: rest =>
      rw [allKeysTree] at hk
      rw [bumpTree]
      rcases List.mem_cons.mp hk with h1 | h2
      · subst h1
        have hb : n < bumpCounter k c := bumpCounter_gt k c n hp
        have hbf : bumpCounter k c ≤ bumpField k f c := by
          match f with
          | .mk nm t2 d p v e nf =>
              rw [bumpField]
              exact bumpTree_ge nf _
        exact lt_of_lt_of_le (lt_of_lt_of_le hb hbf) (bumpTree_ge rest _)
      · rcases List.mem_append.mp h2 with h3 | h4
        · exact lt_of_lt_of_le (keybound_field k1 k f c n h3 hp) (bumpTree_ge rest _)
        · exact keybound_tree k rest (bumpField k1 f c) n h4 hp
termination_by sizeOf t
end

mutual
theorem addField_fc (path : List String) (k : String) (f : Field) (st : MakerState) :
    (addField path (some k) f.toInitData st).fieldCounter = bumpField k f st.fieldCounter := by
  match f with
  | .mk nm t d p v e nf =>
      rw [Field.toInitData, addField.eq_def]
      exact addFieldList_fc (path ++ [k]) nf _
termination_by sizeOf f

theorem addFieldList_fc (path : List String) (l : Tree) (st : MakerState) :
    (addFieldList path (treeToInitList l) st).fieldCounter = bumpTree l st.fieldCounter := by
  match l with
  | [] => rw [treeToInitList, addFieldList, bumpTree]
  | (k, f) :: rest =>
      rw [treeToInitList, addFieldList, bumpTree]
      rw [addFieldList_fc path rest _, addField_fc path k f st]
termination_by sizeOf l
end

theorem buildFields_fc (obj : Tree) (path : List String) (st : MakerState) :
    (buildFieldsFromObject obj path st).fieldCounter = bumpTree obj st.fieldCounter := by
  induction obj generalizing st with
  | nil => rw [buildFieldsFromObject, bumpTree]
  | cons hd rest ih =>
      obtain ⟨k, f⟩ := hd
      rw [buildFieldsFromObject, bumpTree, ih, addField_fc]

mutual
theorem allKeys_normalizeTree (c : Int) (t : Tree) :
    allKeysTree (normalizeExampleTree c t) = allKeysTree t := by
  match t with
  | [] => rfl
  | (k, f) :: rest =>
      rw [normalizeExampleTree, allKeysTree, allKeysTree,
        allKeys_normalizeField c f, allKeys_normalizeTree c rest]
termination_by sizeOf t

theorem allKeys_normalizeField (c : Int) (f : Field) :
    allKeysField (normalizeExampleField c f) = allKeysField f := by
  match f with
  | .mk n t d p v e nf =>
      rw [normalizeExampleField, allKeysField, allKeysField, allKeys_normalizeTree c nf]
termination_by sizeOf f
end

theorem populate_fc (obj : Tree) (prior : MakerState) :
    (populateFromExistingObject obj prior).2.fieldCounter =
      bumpTree (normalizeExampleTree (collectExampleTree obj 0) obj) 0 := by
  rw [populate_state, buildFields_fc]

/-- **C7.**  Id collision avoidance on load: after `populateFromExistingObject`
rebuilds a stored tree, every stored id of the form `field-N` (at any depth,
`parseIdNum k = some n`) satisfies `n < fieldCounter`; the subsequent
`create(null, {})` — `addField` with no supplied id — allocates
`field-${fieldCounter}`, bumps the counter by one, appends the new record
under the fresh id, and that id differs from every stored id of this form.
In particular a stored `field-7` forces a numeric suffix strictly greater
than `7`. -/
theorem claim_C7_fresh_id (obj : Tree) (prior : MakerState) (k : String) (n : Nat)
    (hk : k ∈ allKeysTree obj) (hn : parseIdNum k = some n) :
    n < (populateFromExistingObject obj prior).2.fieldCounter ∧
    (addField [] none emptyInit (populateFromExistingObject obj prior).2).fieldCounter =
      (populateFromExistingObject obj prior).2.fieldCounter + 1 ∧
    (addField [] none emptyInit (populateFromExistingObject obj prior).2).backendObject =
      insertAssoc
        ("field-" ++ natRepr (populateFromExistingObject obj prior).2.fieldCounter)
        (buildRecordFlat emptyInit
          (populateFromExistingObject obj prior).2.exampleCounter)
        (populateFromExistingObject obj prior).2.backendObject ∧
    "field-" ++ natRepr (populateFromExistingObject obj prior).2.fieldCounter ≠ k := by
  have h1 : n < (populateFromExistingObject obj prior).2.fieldCounter := by
    rw [populate_fc]
    apply keybound_tree k _ 0 n _ hn
    rw [allKeys_normalizeTree]
    exact hk
  refine ⟨h1, rfl, rfl, ?_⟩
  intro heq
  rw [← heq, parseIdNum_field] at hn
  have : (populateFromExistingObject obj prior).2.fieldCounter = n := Option.some.inj hn
  omega

theorem claim_C7_witness :
    7 < (populateFromExistingObject
        [("x", Field.mk "a" "OBJECT" true "" "" [] [("field-7",
          Field.mk "b" "String" true "" "" ["e"] [])])] initState).2.fieldCounter ∧
    "field-" ++ natRepr (populateFromExistingObject
        [("x", Field.mk "a" "OBJECT" true "" "" [] [("field-7",
          Field.mk "b" "String" true "" "" ["e"] [])])] initState).2.fieldCounter ≠
      "field-7" := by
  have h := claim_C7_fresh_id
    [("x", Field.mk "a" "OBJECT" true "" "" [] [("field-7",
      Field.mk "b" "String" true "" "" ["e"] [])])] initState "field-7" 7
    (by decide) (by decide)
  exact ⟨h.1, h.2.2.2⟩

/-! ### Claim C2: tree-mutation algebra -/

theorem updateEntry_cons (k k1 : String) (g : Field → Field) (f : Field) (rest : Tree) :
    updateEntry k g ((k1, f) :: rest) =
      (if k1 = k then (k1, g f) else (k1, f)) :: updateEntry k g rest := by
  rw [updateEntry, updateEntry, List.map_cons]

theorem updateEntry_congr (k : String) (g1 g2 : Field → Field) (h : ∀ f, g1 f = g2 f) :
    ∀ (t : Tree), updateEntry k g1 t = updateEntry k g2 t := by
  intro t
  induction t with
  | nil => rfl
  | cons hd rest ih =>
      obtain ⟨k1, f⟩ := hd
      rw [updateEntry_cons, updateEntry_cons, ih, h]

theorem updateEntry_comp (k : String) (g1 g2 : Field → Field) (t : Tree) :
    updateEntry k g1 (updateEntry k g2 t) = updateEntry k (fun f => g1 (g2 f)) t := by
  induction t with
  | nil => rfl
  | cons hd rest ih =>
      obtain ⟨k1, f⟩ := hd
      by_cases hk : k1 = k
      · rw [updateEntry_cons, if_pos hk, updateEntry_cons, if_pos hk,
          updateEntry_cons, if_pos hk, ih]
      · rw [updateEntry_cons, if_neg hk, updateEntry_cons, if_neg hk,
          updateEntry_cons, if_neg hk, ih]

theorem updateMapAt_cons (k : String) (rest : List String) (g : Tree → Tree) (t : Tree) :
    updateMapAt (k :: rest) g t =
      updateEntry k (fun f => f.setNested (updateMapAt rest g f.nestedFields)) t := rfl

theorem updateMapAt_congr (g1 g2 : Tree → Tree) (h : ∀ s, g1 s = g2 s) :
    ∀ (path : List String) (t : Tree), updateMapAt path g1 t = updateMapAt path g2 t := by
  intro path
  induction path with
  | nil => intro t; exact h t
  | cons k rest ih =>
      intro t
      rw [updateMapAt_cons, updateMapAt_cons]
      exact updateEntry_congr k _ _ (fun f => by rw [ih]) t

theorem updateMapAt_comp (g1 g2 : Tree → Tree) :
    ∀ (path : List String) (t : Tree),
      updateMapAt path g1 (updateMapAt path g2 t) =
        updateMapAt path (fun s => g1 (g2 s)) t := by
  intro path
  induction path with
  | nil => intro t; rfl
  | cons k rest ih =>
      intro t
      rw [updateMapAt_cons, updateMapAt_cons, updateMapAt_cons, updateEntry_comp]
      apply updateEntry_congr
      intro f
      dsimp only
      rw [setNested_nestedFields, setNested_setNested, ih]

theorem updateMapAt_append (p q : List String) (g : Tree → Tree) :
    ∀ (t : Tree), updateMapAt (p ++ q) g t = updateMapAt p (updateMapAt q g) t := by
  induction p with
  | nil => intro t; rfl
  | cons k p2 ih =>
      intro t
      rw [List.cons_append, updateMapAt_cons, updateMapAt_cons]
      apply updateEntry_congr
      intro f
      rw [ih]

theorem updateEntry_hasKey_false (k : String) (g : Field → Field) :
    ∀ (t : Tree), hasKey k t = false → updateEntry k g t = t := by
  intro t
  induction t with
  | nil => intro h; rfl
  | cons hd rest ih =>
      obtain ⟨k1, f⟩ := hd
      intro h
      simp only [hasKey, List.any_cons, Bool.or_eq_false_iff,
        decide_eq_false_iff_not] at h
      rw [updateEntry_cons, if_neg h.1, ih h.2]

theorem updateEntry_overwrite (k : String) (h : Field → Field) (v : Field) (t : Tree) :
    updateEntry k h (t.map (fun p => if p.1 = k then (k, v) else p)) =
      t.map (fun p => if p.1 = k then (k, h v) else p) := by
  induction t with
  | nil => rfl
  | cons hd rest ih =>
      obtain ⟨k1, f⟩ := hd
      rw [List.map_cons, List.map_cons]
      dsimp only
      by_cases hk : k1 = k
      · rw [if_pos hk, if_pos hk, updateEntry_cons, if_pos rfl, ih]
      · rw [if_neg hk, if_neg hk, updateEntry_cons, if_neg hk, ih]

theorem updateEntry_insertAssoc (k : String) (h : Field → Field) (v : Field) (t : Tree) :
    updateEntry k h (insertAssoc k v t) = insertAssoc k (h v) t := by
  unfold insertAssoc
  by_cases hm : hasKey k t
  · rw [if_pos hm, if_pos hm, updateEntry_overwrite]
  · rw [if_neg hm, if_neg hm]
    rw [updateEntry, List.map_append]
    rw [show (t.map fun p => if p.1 = k then (p.1, h p.2) else p) = t from
      updateEntry_hasKey_false k h t (by simpa using hm)]
    rw [List.map_cons, List.map_nil]
    dsimp only
    rw [if_pos rfl]

theorem updateMapAt_nested_ins (path : List String) (k k2 : String) (f2 g : Field)
    (acc B : Tree) :
    updateMapAt (path ++ [k]) (insertAssoc k2 f2)
        (updateMapAt path (insertAssoc k (g.setNested acc)) B) =
      updateMapAt path (insertAssoc k (g.setNested (insertAssoc k2 f2 acc))) B := by
  rw [updateMapAt_append, updateMapAt_comp]
  apply updateMapAt_congr
  intro s
  rw [updateMapAt_cons, updateEntry_insertAssoc]
  rw [setNested_nestedFields, setNested_setNested]
  rw [updateMapAt]

theorem hasKey_append_ne (j k : String) (v : Field) (t : Tree) (hk : ¬k = j) :
    hasKey j (t ++ [(k, v)]) = hasKey j t := by
  simp only [hasKey, List.any_append, List.any_cons, List.any_nil]
  simp [hk]

theorem nodup_append_single (k : String) (v : Field) :
    ∀ (t : Tree), hasKey k t = false → nodupKeys (t ++ [(k, v)]) = nodupKeys t := by
  intro t
  induction t with
  | nil => intro h; simp [nodupKeys, hasKey]
  | cons hd rest ih =>
      obtain ⟨k1, f⟩ := hd
      intro h
      simp only [hasKey, List.any_cons, Bool.or_eq_false_iff,
        decide_eq_false_iff_not] at h
      rw [List.cons_append, nodupKeys, nodupKeys,
        hasKey_append_ne k1 k v rest (fun he => h.1 he.symm), ih h.2]

theorem hasKey_map_overwrite (j k : String) (v : Field) (t : Tree) :
    hasKey j (t.map (fun p => if p.1 = k then (k, v) else p)) = hasKey j t := by
  induction t with
  | nil => rfl
  | cons hd rest ih =>
      obtain ⟨k1, f⟩ := hd
      rw [List.map_cons]
      dsimp only
      by_cases hk : k1 = k
      · rw [if_pos hk]
        simp only [hasKey, List.any_cons] at ih ⊢
        rw [ih, hk]
      · rw [if_neg hk]
        simp only [hasKey, List.any_cons] at ih ⊢
        rw [ih]

theorem nodup_map_overwrite (k : String) (v : Field) (t : Tree) :
    nodupKeys (t.map (fun p => if p.1 = k then (k, v) else p)) = nodupKeys t := by
  induction t with
  | nil => rfl
  | cons hd rest ih =>
      obtain ⟨k1, f⟩ := hd
      rw [List.map_cons]
      dsimp only
      by_cases hk : k1 = k
      · rw [if_pos hk, nodupKeys, nodupKeys, hasKey_map_overwrite, ih, hk]
      · rw [if_neg hk, nodupKeys, nodupKeys, hasKey_map_overwrite, ih]

theorem nodup_insertAssoc (k : String) (v : Field) (t : Tree) :
    nodupKeys (insertAssoc k v t) = nodupKeys t := by
  unfold insertAssoc
  by_cases hm : hasKey k t
  · rw [if_pos hm]
    exact nodup_map_overwrite k v t
  · rw [if_neg hm]
    exact nodup_append_single k v t (by simpa using hm)

theorem foldIns_eq_append : ∀ (l acc : Tree), nodupKeys l = true →
    (∀ p ∈ l, hasKey p.1 acc = false) → foldIns l acc = acc ++ l := by
  intro l
  induction l with
  | nil => intro acc _ _; rw [foldIns, List.append_nil]
  | cons hd rest ih =>
      obtain ⟨k, f⟩ := hd
      intro acc hnd hdisj
      rw [nodupKeys] at hnd
      simp only [Bool.and_eq_true, Bool.not_eq_true'] at hnd
      rw [foldIns]
      have hins : insertAssoc k f acc = acc ++ [(k, f)] := by
        unfold insertAssoc
        rw [if_neg]
        rw [hdisj (k, f) (List.mem_cons_self _ _)]
        exact Bool.false_ne_true
      rw [hins, ih (acc ++ [(k, f)]) hnd.2 ?_, List.append_assoc, List.singleton_append]
      intro p hp
      have hpk : ¬p.1 = k := by
        intro he
        have : hasKey k rest = true := by
          rw [hasKey]
          refine List.any_eq_true.mpr ⟨p, hp, ?_⟩
          rw [he]
          exact decide_eq_true rfl
        rw [hnd.1] at this
        exact Bool.false_ne_true this
      rw [hasKey_append_ne p.1 k f acc (fun he => hpk he.symm)]
      exact hdisj p (List.mem_cons_of_mem _ hp)

theorem foldIns_nil (l : Tree) (h : nodupKeys l = true) : foldIns l [] = l := by
  rw [foldIns_eq_append l [] h (fun p _ => rfl), List.nil_append]

theorem hasKey_updateEntry (j k : String) (g : Field → Field) (t : Tree) :
    hasKey j (updateEntry k g t) = hasKey j t := by
  induction t with
  | nil => rfl
  | cons hd rest ih =>
      obtain ⟨k1, f⟩ := hd
      rw [updateEntry_cons]
      by_cases hk : k1 = k
      · rw [if_pos hk]
        simp only [hasKey, List.any_cons] at ih ⊢
        rw [ih]
      · rw [if_neg hk]
        simp only [hasKey, List.any_cons] at ih ⊢
        rw [ih]

theorem wfTree_cons_iff (k1 : String) (f1 : Field) (rest : Tree) :
    wfTree ((k1, f1) :: rest) = true ↔
      hasKey k1 rest = false ∧ wfField f1 = true ∧ wfTree rest = true := by
  cases f1 with
  | mk n t d p v e nf =>
      simp only [wfTree, wfField, nodupKeys, allFieldsB_cons, allFieldB_mk,
        Field.type, Field.nestedFields, Bool.and_eq_true, Bool.not_eq_true']
      tauto

theorem wfField_of_allB (f : Field)
    (h : allFieldB (fun f => (f.type != "") && nodupKeys f.nestedFields) f = true) :
    wfField f = true := by
  cases f with
  | mk n t d p v e nf =>
      rw [allFieldB_mk] at h
      simp only [Field.type, Field.nestedFields, Bool.and_eq_true] at h
      simp only [wfField, wfTree, Field.type, Field.nestedFields, Bool.and_eq_true]
      exact ⟨h.1.1, h.1.2, h.2⟩

theorem allB_of_wfField (f : Field) (h : wfField f = true) :
    allFieldB (fun f => (f.type != "") && nodupKeys f.nestedFields) f = true := by
  cases f with
  | mk n t d p v e nf =>
      simp only [wfField, wfTree, Field.type, Field.nestedFields, Bool.and_eq_true] at h
      rw [allFieldB_mk]
      simp only [Field.type, Field.nestedFields, Bool.and_eq_true]
      exact ⟨⟨h.1, h.2.1⟩, h.2.2⟩

theorem wfTree_updateEntry (k : String) (g : Field → Field)
    (hg : ∀ f, wfField f = true → wfField (g f) = true) :
    ∀ (t : Tree), wfTree t = true → wfTree (updateEntry k g t) = true := by
  intro t
  induction t with
  | nil => intro ht; exact ht
  | cons hd rest ih =>
      obtain ⟨k1, f⟩ := hd
      intro ht
      rw [wfTree_cons_iff] at ht
      rw [updateEntry_cons]
      by_cases hk : k1 = k
      · rw [if_pos hk, wfTree_cons_iff]
        exact ⟨by rw [hasKey_updateEntry]; exact ht.1, hg f ht.2.1, ih ht.2.2⟩
      · rw [if_neg hk, wfTree_cons_iff]
        exact ⟨by rw [hasKey_updateEntry]; exact ht.1, ht.2.1, ih ht.2.2⟩

theorem wfTree_updateMapAt (g : Tree → Tree)
    (hg : ∀ s, wfTree s = true → wfTree (g s) = true) :
    ∀ (path : List String) (t : Tree), wfTree t = true →
      wfTree (updateMapAt path g t) = true := by
  intro path
  induction path with
  | nil => intro t ht; exact hg t ht
  | cons k rest ih =>
      intro t ht
      rw [updateMapAt_cons]
      refine wfTree_updateEntry k _ ?_ t ht
      intro f hf
      cases f with
      | mk n t2 d p v e nf =>
          rw [Field.setNested]
          simp only [wfField, Field.type, Field.nestedFields, Bool.and_eq_true] at hf ⊢
          exact ⟨hf.1, ih nf hf.2⟩

theorem wfTree_insertAssoc (k : String) (v : Field) (t : Tree)
    (hv : wfField v = true) (ht : wfTree t = true) : wfTree (insertAssoc k v t) = true := by
  rw [wfTree] at ht ⊢
  simp only [Bool.and_eq_true] at ht ⊢
  refine ⟨?_, ?_⟩
  · rw [nodup_insertAssoc]
    exact ht.1
  · exact allFieldsB_insertAssoc _ k v t (allB_of_wfField v hv) ht.2

theorem jsOrStr_some (s d : String) (h : ¬s = "") : jsOrStr (some s) d = s := by
  rw [jsOrStr, if_neg h]

theorem jsOrStr_some_nil (s : String) : jsOrStr (some s) "" = s := by
  by_cases hs : s = ""
  · rw [jsOrStr, if_pos hs, hs]
  · rw [jsOrStr, if_neg hs]

theorem jsOrStr_type_ne (o : Option String) : (jsOrStr o "String" != "") = true := by
  cases o with
  | none => rfl
  | some s =>
      by_cases hs : s = ""
      · rw [jsOrStr, if_pos hs]
        rfl
      · rw [jsOrStr, if_neg hs]
        simpa using hs

theorem wfField_record (i : InitData) (c : Int) : wfField (buildRecordFlat i c) = true := by
  rw [buildRecordFlat, wfField]
  simp only [Field.type, Field.nestedFields]
  rw [jsOrStr_type_ne]
  rfl

theorem buildRecordFlat_toInitData (n t : String) (d : Bool) (p v : String)
    (e : List String) (nf : Tree) (c : Int) (ht : ¬t = "") :
    buildRecordFlat (Field.mk n t d p v e nf).toInitData c = Field.mk n t d p v e [] := by
  rw [Field.toInitData, buildRecordFlat]
  dsimp only [InitData.name, InitData.type, InitData.isDynamic, InitData.prompt,
    InitData.defaultValue, InitData.exampleValues, defaultExampleValues, Option.getD]
  rw [jsOrStr_some t "String" ht]
  simp only [jsOrStr_some_nil]

theorem hasKey_normalize (j : String) (c : Int) (t : Tree) :
    hasKey j (normalizeExampleTree c t) = hasKey j t := by
  induction t with
  | nil => rfl
  | cons hd rest ih =>
      obtain ⟨k, f⟩ := hd
      rw [normalizeExampleTree]
      simp only [hasKey, List.any_cons] at ih ⊢
      rw [ih]

theorem nodupKeys_normalize (c : Int) (t : Tree) :
    nodupKeys (normalizeExampleTree c t) = nodupKeys t := by
  induction t with
  | nil => rfl
  | cons hd rest ih =>
      obtain ⟨k, f⟩ := hd
      rw [normalizeExampleTree, nodupKeys, nodupKeys, hasKey_normalize, ih]

mutual
theorem wfB_normalizeTree (c : Int) (t : Tree) :
    allFieldsB (fun f => (f.type != "") && nodupKeys f.nestedFields)
        (normalizeExampleTree c t) =
      allFieldsB (fun f => (f.type != "") && nodupKeys f.nestedFields) t := by
  match t with
  | [] => rfl
  | (k, f) :: rest =>
      rw [normalizeExampleTree, allFieldsB_cons, allFieldsB_cons,
        wfB_normalizeField c f, wfB_normalizeTree c rest]
termination_by sizeOf t

theorem wfB_normalizeField (c : Int) (f : Field) :
    allFieldB (fun f => (f.type != "") && nodupKeys f.nestedFields)
        (normalizeExampleField c f) =
      allFieldB (fun f => (f.type != "") && nodupKeys f.nestedFields) f := by
  match f with
  | .mk n t d p v e nf =>
      rw [normalizeExampleField, allFieldB_mk, allFieldB_mk, wfB_normalizeTree c nf]
      simp only [Field.type, Field.nestedFields, nodupKeys_normalize]
termination_by sizeOf f
end

theorem wfTree_normalize (c : Int) (t : Tree) :
    wfTree (normalizeExampleTree c t) = wfTree t := by
  rw [wfTree, wfTree, nodupKeys_normalize, wfB_normalizeTree]

mutual
theorem erase_normalizeTree (c : Int) (t : Tree) :
    eraseExamplesTree (normalizeExampleTree c t) = eraseExamplesTree t := by
  match t with
  | [] => rfl
  | (k, f) :: rest =>
      rw [normalizeExampleTree, eraseExamplesTree, eraseExamplesTree,
        erase_normalizeField c f, erase_normalizeTree c rest]
termination_by sizeOf t

theorem erase_normalizeField (c : Int) (f : Field) :
    eraseExamplesField (normalizeExampleField c f) = eraseExamplesField f := by
  match f with
  | .mk n t d p v e nf =>
      rw [normalizeExampleField, eraseExamplesField, eraseExamplesField,
        erase_normalizeTree c nf]
termination_by sizeOf f
end

mutual
theorem addField_rebuild (path : List String) (k : String) (f : Field)
    (B : Tree) (c : Nat) (ec : Int) (hf : wfField f = true) :
    addField path (some k) f.toInitData
        { backendObject := B, fieldCounter := c, exampleCounter := ec } =
      { backendObject := updateMapAt path (insertAssoc k f) B,
        fieldCounter := bumpField k f c, exampleCounter := ec } := by
  match f with
  | .mk n t d p v e nf =>
      simp only [wfField, wfTree, Field.type, Field.nestedFields, Bool.and_eq_true,
        bne_iff_ne, ne_eq] at hf
      have hrec : buildRecordFlat (Field.mk n t d p v e nf).toInitData ec =
          (Field.mk n t d p v e nf).setNested [] := by
        rw [buildRecordFlat_toInitData n t d p v e nf ec hf.1, Field.setNested]
      have h1 : addField path (some k) (Field.mk n t d p v e nf).toInitData
          { backendObject := B, fieldCounter := c, exampleCounter := ec } =
        addFieldList (path ++ [k]) (treeToInitList nf)
          { backendObject := updateMapAt path
              (insertAssoc k (buildRecordFlat (Field.mk n t d p v e nf).toInitData ec)) B,
            fieldCounter := bumpCounter k c, exampleCounter := ec } := rfl
      rw [h1, hrec]
      rw [addFieldList_rebuild path k (Field.mk n t d p v e nf) [] nf B
        (bumpCounter k c) ec hf.2.2]
      rw [foldIns_nil nf hf.2.1, Field.setNested, bumpField]
termination_by sizeOf f

theorem addFieldList_rebuild (path : List String) (k : String) (g : Field) (acc : Tree)
    (l : Tree) (B : Tree) (c : Nat) (ec : Int)
    (hl : allFieldsB (fun f => (f.type != "") && nodupKeys f.nestedFields) l = true) :
    addFieldList (path ++ [k]) (treeToInitList l)
        { backendObject := updateMapAt path (insertAssoc k (g.setNested acc)) B,
          fieldCounter := c, exampleCounter := ec } =
      { backendObject :=
          updateMapAt path (insertAssoc k (g.setNested (foldIns l acc))) B,
        fieldCounter := bumpTree l c, exampleCounter := ec } := by
  match l with
  | [] => rw [treeToInitList, addFieldList, foldIns, bumpTree]
  | (k2, f2) :: rest =>
      rw [allFieldsB_cons] at hl
      simp only [Bool.and_eq_true] at hl
      rw [treeToInitList, addFieldList, foldIns, bumpTree]
      rw [addField_rebuild (path ++ [k]) k2 f2
        (updateMapAt path (insertAssoc k (g.setNested acc)) B) c ec
        (wfField_of_allB f2 hl.1)]
      rw [updateMapAt_nested_ins]
      exact addFieldList_rebuild path k g (insertAssoc k2 f2 acc) rest B
        (bumpField k2 f2 c) ec hl.2
termination_by sizeOf l
end

theorem buildFields_rebuild : ∀ (obj acc : Tree) (c : Nat) (ec : Int),
    allFieldsB (fun f => (f.type != "") && nodupKeys f.nestedFields) obj = true →
    buildFieldsFromObject obj []
        { backendObject := acc, fieldCounter := c, exampleCounter := ec } =
      { backendObject := foldIns obj acc, fieldCounter := bumpTree obj c,
        exampleCounter := ec } := by
  intro obj
  induction obj with
  | nil => intro acc c ec _; rw [buildFieldsFromObject, foldIns, bumpTree]
  | cons hd rest ih =>
      obtain ⟨k, f⟩ := hd
      intro acc c ec h
      rw [allFieldsB_cons] at h
      simp only [Bool.and_eq_true] at h
      rw [buildFieldsFromObject, foldIns, bumpTree]
      rw [addField_rebuild [] k f acc c ec (wfField_of_allB f h.1)]
      rw [updateMapAt]
      exact ih (insertAssoc k f acc) (bumpField k f c) ec h.2

theorem populate_rebuild (B : Tree) (prior : MakerState) (hwf : wfTree B = true) :
    (populateFromExistingObject B prior).2.backendObject =
      normalizeExampleTree (collectExampleTree B 0) B := by
  have hw2 : wfTree (normalizeExampleTree (collectExampleTree B 0) B) = true := by
    rw [wfTree_normalize]
    exact hwf
  rw [wfTree] at hw2
  simp only [Bool.and_eq_true] at hw2
  rw [populate_state]
  rw [buildFields_rebuild _ [] 0 (collectExampleTree B 0) hw2.2]
  show foldIns (normalizeExampleTree (collectExampleTree B 0) B) [] = _
  exact foldIns_nil _ hw2.1

mutual
theorem addField_wf (path : List String) (fid? : Option String) (i : InitData)
    (st : MakerState) (h : wfTree st.backendObject = true) :
    wfTree (addField path fid? i st).backendObject = true := by
  match i with
  | .mk nm ty dyn pr dv evs nested =>
      rw [addField.eq_def]
      apply addFieldList_wf
      exact wfTree_updateMapAt _
        (fun s hs => wfTree_insertAssoc _ _ s (wfField_record _ _) hs)
        path st.backendObject h
termination_by sizeOf i

theorem addFieldList_wf (path : List String) (l : InitList) (st : MakerState)
    (h : wfTree st.backendObject = true) :
    wfTree (addFieldList path l st).backendObject = true := by
  match l with
  | .nil =>
      rw [addFieldList]
      exact h
  | .cons nid ndata rest =>
      rw [addFieldList]
      exact addFieldList_wf path rest _ (addField_wf path (some nid) ndata st h)
termination_by sizeOf l
end

theorem execOps_wf : ∀ (ops : List Op) (st : MakerState), createOnly ops = true →
    wfTree st.backendObject = true → wfTree (execOps ops st).backendObject = true := by
  intro ops
  induction ops with
  | nil => intro st _ hst; exact hst
  | cons op rest ih =>
      intro st h hst
      cases op with
      | create path i =>
          rw [execOps]
          rw [createOnly] at h
          exact ih _ h (addField_wf path none i st hst)
      | addRound => simp [createOnly] at h
      | removeRound => simp [createOnly] at h
      | deserialize obj => simp [createOnly] at h
      | setType path fid ty => simp [createOnly] at h

/-- **C2.**  Round-trip: for any tree built via `create` (an arbitrary
`createOnly` sequence of editor operations from a fresh instance),
`serialize()` (`triggerSaveCallback`) followed by `deserialize()`
(`populateFromExistingObject`) rebuilds exactly the padding-normalized
original: the rebuilt `backendObject` equals `normalizeExampleTree m` of the
original for `m` the collected maximum example count; with `exampleValues`
erased the rebuilt tree coincides with the original — same ids and order at
every depth, same `name`, `type`, `isDynamic`, `prompt`, `defaultValue`, same
nested-field structure — and after the padding normalization every field's
`exampleValues` length equals `m` at every depth. -/
theorem claim_C2_roundtrip (ops : List Op) (h : createOnly ops = true) :
    (populateFromExistingObject (triggerSaveCallback (execOps ops initState))
        (execOps ops initState)).2.backendObject =
      normalizeExampleTree
        (collectExampleTree (execOps ops initState).backendObject 0)
        (execOps ops initState).backendObject ∧
    eraseExamplesTree
        ((populateFromExistingObject (triggerSaveCallback (execOps ops initState))
            (execOps ops initState)).2.backendObject) =
      eraseExamplesTree (execOps ops initState).backendObject ∧
    uniformLen
        ((populateFromExistingObject (triggerSaveCallback (execOps ops initState))
            (execOps ops initState)).2.backendObject)
        (collectExampleTree (execOps ops initState).backendObject 0) = true := by
  have hwf : wfTree (execOps ops initState).backendObject = true :=
    execOps_wf ops initState h rfl
  have htr : triggerSaveCallback (execOps ops initState) =
      (execOps ops initState).backendObject := rfl
  have h1 : (populateFromExistingObject (triggerSaveCallback (execOps ops initState))
      (execOps ops initState)).2.backendObject =
      normalizeExampleTree (collectExampleTree (execOps ops initState).backendObject 0)
        (execOps ops initState).backendObject := by
    rw [htr, populate_rebuild _ _ hwf]
  refine ⟨h1, ?_, ?_⟩
  · rw [h1, erase_normalizeTree]
  · rw [h1, uniformLen_eq]
    exact normalizeTree_uniform _ _ (le_refl _)

theorem claim_C2_witness :
    createOnly sampleCreateOps = true ∧
    ((populateFromExistingObject (triggerSaveCallback (execOps sampleCreateOps initState))
        (execOps sampleCreateOps initState)).2.backendObject =
      normalizeExampleTree
        (collectExampleTree (execOps sampleCreateOps initState).backendObject 0)
        (execOps sampleCreateOps initState).backendObject ∧
    eraseExamplesTree
        ((populateFromExistingObject
            (triggerSaveCallback (execOps sampleCreateOps initState))
            (execOps sampleCreateOps initState)).2.backendObject) =
      eraseExamplesTree (execOps sampleCreateOps initState).backendObject ∧
    uniformLen
        ((populateFromExistingObject
            (triggerSaveCallback (execOps sampleCreateOps initState))
            (execOps sampleCreateOps initState)).2.backendObject)
        (collectExampleTree (execOps sampleCreateOps initState).backendObject 0) = true) :=
  ⟨by decide, claim_C2_roundtrip sampleCreateOps (by decide)⟩

end TrackerModel
